import Mathlib

set_option maxRecDepth 8000

/-!
Verification development for `src/IGEN430/rpi_image_collect.py`.

The Python module is a one-level web image harvester:
`download_images_from_linked_pages(url, output_folder, same_domain, max_links,
dated_subfolder)` fetches a root page, saves its images, then visits the
anchors of the root page (same-origin by default), saving direct image links
and the images of linked HTML pages.

The shallow embedding below models:
  * `_safe_filename_from_url` (urlparse path extraction, `Path(...).name`,
    the `re.sub` over unsafe characters, and the SHA-1 fallback name);
  * the orchestration loop of `download_images_from_linked_pages` as a pure
    function over a `World` that fixes the outcome of every HTTP GET and of
    every file open, producing the run's observable trace (`Ev` events).
    Network and filesystem effects are the only impure inputs of the script,
    so a `World` determines the run completely;
  * the dated output directory name built with
    `datetime.now().strftime('images_%Y%m%d_%H%M%S')`.

Python exceptions are modelled with `Except`: a `requests.RequestException`
raised by a GET or by `iter_content` inside a `try` is handled exactly
where the script handles it.  Two exception paths are uncaught and crash
the process (`Except.error`, non-zero exit): an `OSError` raised by
`open(filepath, 'wb')`, and the `RequestException` raised by
`link_resp.text` at line 115 when the streamed body of an HTML-classified
link fails mid-read (that line sits outside every `try`).  A crashed run's
error value carries the events that had already happened — files written
before the crash stay on disk.
-/

namespace Harvest

/-- Decimal digit characters, used to model Python's `str(int)` and
`strftime` zero-padded fields digit by digit. -/
def digitChar10 (n : Nat) : Char :=
  match n with
  | 0 => '0' | 1 => '1' | 2 => '2' | 3 => '3' | 4 => '4'
  | 5 => '5' | 6 => '6' | 7 => '7' | 8 => '8' | 9 => '9'
  | _ => '!'

/-- Recognises a decimal digit character. -/
def isDig (c : Char) : Bool := decide ('0' ≤ c) && decide (c ≤ '9')

/-- Numeric value of a digit character. -/
def digToNat (c : Char) : Nat := c.toNat - 48

/-- Fuelled loop producing the decimal digits of `n` (most significant
first) in front of `acc`; the fuel only guarantees structural recursion. -/
def digitsGo : Nat → Nat → List Char → List Char
  | 0, _, acc => acc
  | fuel + 1, n, acc =>
    if n < 10 then digitChar10 n :: acc
    else digitsGo fuel (n / 10) (digitChar10 (n % 10) :: acc)

/-- Decimal representation of `n`, as produced by Python's `str(int)`. -/
def natDigits (n : Nat) : List Char := digitsGo (n + 1) n []

/-- Value of a digit string, used to invert `natDigits`. -/
def digitsVal (l : List Char) : Nat := l.foldl (fun a c => a * 10 + digToNat c) 0

/-- Splits a URL character list at the first occurrence of `://` into the
scheme part and the remainder, as `urllib.parse.urlparse` does for the
absolute URLs this script works with; `none` when there is no scheme
separator. -/
def splitSS : List Char → Option (List Char × List Char)
  | [] => none
  | c :: cs =>
    if c = ':' ∧ cs.take 2 = ['/', '/'] then some ([], cs.drop 2)
    else
      match splitSS cs with
      | some p => some (c :: p.1, p.2)
      | none => none

/-- Characters ending the network-location component of a URL. -/
def notDelim (c : Char) : Bool := !(c == '/' || c == '?' || c == '#')

/-- Takes characters up to the first `?` or `#`, i.e. strips the query and
fragment from a path remainder. -/
def takeUntilQF : List Char → List Char
  | [] => []
  | c :: cs => if c == '?' || c == '#' then [] else c :: takeUntilQF cs

/-- Path component of a URL (the `urlparse(url).path` of the script),
without query or fragment. -/
def pathOfUrl (url : String) : List Char :=
  match splitSS url.data with
  | some p => takeUntilQF (p.2.dropWhile notDelim)
  | none => takeUntilQF url.data

/-- Network location (`urlparse(url).netloc`) of a URL; empty for URLs
without a scheme separator. -/
def netlocOf (url : String) : String :=
  match splitSS url.data with
  | some p => String.mk (p.2.takeWhile notDelim)
  | none => ""

/-- Directory part of a path: everything up to and including the last `/`,
or the root `/` when the path has no slash.  Used to resolve relative
references in `urljoin`. -/
def dirOf (path : List Char) : List Char :=
  if path.contains '/' then (path.reverse.dropWhile (fun c => !(c == '/'))).reverse
  else ['/']

/-- Models `urllib.parse.urljoin(base, rel)` for the shapes the script
exercises: an empty reference keeps the base, a reference with its own
scheme replaces the base, a root-relative reference replaces the path, and
any other reference is resolved against the directory of the base path.
Dot-segment normalisation is not modelled. -/
def urljoin (base rel : String) : String :=
  if rel.data.isEmpty then base
  else if (splitSS rel.data).isSome then rel
  else
    match splitSS base.data with
    | none => rel
    | some p =>
      let netloc := p.2.takeWhile notDelim
      let path := p.2.dropWhile notDelim
      let front := String.mk (p.1 ++ ':' :: '/' :: '/' :: netloc)
      if rel.data.head? = some '/' then front ++ rel
      else front ++ String.mk (dirOf path) ++ rel

/-- Splits a character list on `/`, keeping empty segments, like
`str.split('/')`. -/
def splitSlash : List Char → List (List Char)
  | [] => [[]]
  | c :: cs =>
    if c == '/' then [] :: splitSlash cs
    else
      match splitSlash cs with
      | [] => [[c]]
      | h :: t => (c :: h) :: t

/-- Final path component, as `pathlib.PurePath(p).name`: empty and `.`
segments are dropped and the last remaining segment is returned (empty
when there is none). -/
def pathName (p : List Char) : List Char :=
  (((splitSlash p).filter (fun seg => !(seg.isEmpty) && !(seg == ['.']))).getLast?).getD []

/-- Suffix of a final path component, as `pathlib.PurePath(p).suffix`: the
part of the name from its last dot, but only when that dot is neither the
first nor the last character of the name. -/
def suffixOfName (name : List Char) : List Char :=
  let r := name.reverse
  let a := r.takeWhile (fun c => !(c == '.'))
  match r.dropWhile (fun c => !(c == '.')) with
  | '.' :: b => if a.isEmpty || b.isEmpty then [] else '.' :: a.reverse
  | _ => []

/-- Characters replaced by `_` in `_safe_filename_from_url`, the class of
the regular expression at line 17 of the script. -/
def unsafeChar (c : Char) : Bool :=
  c == '\\' || c == '/' || c == ':' || c == '*' || c == '?' ||
  c == '\"' || c == '<' || c == '>' || c == '|'

/-- Models `re.sub(r"[\\/:*?\"<>|]", "_", name)`: each unsafe character is
replaced by an underscore. -/
def sanitizeChars (l : List Char) : List Char :=
  l.map (fun c => if unsafeChar c then '_' else c)

/-- Truncation to 32 bits. -/
def w32 (x : Nat) : Nat := x % 4294967296

/-- Left rotation of a 32-bit word. -/
def rotl (n x : Nat) : Nat := w32 (x * 2 ^ n + x / 2 ^ (32 - n))

/-- UTF-8 encoding of one character, modelling `str.encode('utf-8')`. -/
def utf8Bytes (c : Char) : List Nat :=
  let n := c.toNat
  if n < 128 then [n]
  else if n < 2048 then [192 + n / 64, 128 + n % 64]
  else if n < 65536 then [224 + n / 4096, 128 + n / 64 % 64, 128 + n % 64]
  else [240 + n / 262144, 128 + n / 4096 % 64, 128 + n / 64 % 64, 128 + n % 64]

/-- UTF-8 bytes of a string. -/
def strBytes (s : String) : List Nat := (s.data.map utf8Bytes).flatten

/-- Big-endian 64-bit length field of the SHA-1 padding. -/
def lenBytes8 (n : Nat) : List Nat :=
  [n / 72057594037927936 % 256, n / 281474976710656 % 256, n / 1099511627776 % 256,
   n / 4294967296 % 256, n / 16777216 % 256, n / 65536 % 256, n / 256 % 256, n % 256]

/-- SHA-1 message padding: `0x80`, zeros to 56 mod 64, then the bit length. -/
def padMsg (m : List Nat) : List Nat :=
  m ++ 128 :: List.replicate ((119 - m.length % 64) % 64) 0 ++ lenBytes8 (8 * m.length)

/-- Splits a byte list into 64-byte blocks. -/
def chunk64 (l : List Nat) : List (List Nat) :=
  if h : l = [] then [] else l.take 64 :: chunk64 (l.drop 64)
termination_by l.length
decreasing_by
  rw [List.length_drop]
  exact Nat.sub_lt (List.length_pos.mpr h) (by decide)

/-- Big-endian 32-bit words of a 64-byte block. -/
def toWords : List Nat → List Nat
  | b0 :: b1 :: b2 :: b3 :: rest =>
    (b0 * 16777216 + b1 * 65536 + b2 * 256 + b3) :: toWords rest
  | _ => []

/-- Round constants of SHA-1. -/
def sha1K (i : Nat) : Nat :=
  if i < 20 then 1518500249 else if i < 40 then 1859775393
  else if i < 60 then 2400959708 else 3395469782

/-- Round functions of SHA-1. -/
def sha1F (i b c d : Nat) : Nat :=
  if i < 20 then Nat.lor (Nat.land b c) (Nat.land (Nat.xor b 4294967295) d)
  else if i < 40 then Nat.xor (Nat.xor b c) d
  else if i < 60 then Nat.lor (Nat.lor (Nat.land b c) (Nat.land b d)) (Nat.land c d)
  else Nat.xor (Nat.xor b c) d

/-- Extends the 16 message words of a block to the 80 schedule words. -/
def extendW (ws : Array Nat) : Array Nat :=
  (List.range 64).foldl (fun a i =>
    a.push (rotl 1 (Nat.xor (Nat.xor (a.getD (i + 13) 0) (a.getD (i + 8) 0))
      (Nat.xor (a.getD (i + 2) 0) (a.getD i 0))))) ws

/-- Compression of one 64-byte block into the running SHA-1 state. -/
def sha1Block (h : Nat × Nat × Nat × Nat × Nat) (block : List Nat) :
    Nat × Nat × Nat × Nat × Nat :=
  let ws := extendW (Array.mk (toWords block))
  let s := (List.range 80).foldl (fun st i =>
    let temp := w32 (rotl 5 st.1 + sha1F i st.2.1 st.2.2.1 st.2.2.2.1 +
      st.2.2.2.2 + sha1K i + ws.getD i 0)
    (temp, st.1, rotl 30 st.2.1, st.2.2.1, st.2.2.2.1)) h
  (w32 (h.1 + s.1), w32 (h.2.1 + s.2.1), w32 (h.2.2.1 + s.2.2.1),
   w32 (h.2.2.2.1 + s.2.2.2.1), w32 (h.2.2.2.2 + s.2.2.2.2))

/-- SHA-1 digest (20 bytes) of a byte list. -/
def sha1Bytes (msg : List Nat) : List Nat :=
  let f := (chunk64 (padMsg msg)).foldl sha1Block
    (1732584193, 4023233417, 2562383102, 271733878, 3285377520)
  ([f.1, f.2.1, f.2.2.1, f.2.2.2.1, f.2.2.2.2].map
    (fun x => [x / 16777216 % 256, x / 65536 % 256, x / 256 % 256, x % 256])).flatten

/-- Lower-case hexadecimal digit. -/
def hexChar (n : Nat) : Char :=
  match n with
  | 0 => '0' | 1 => '1' | 2 => '2' | 3 => '3' | 4 => '4' | 5 => '5' | 6 => '6'
  | 7 => '7' | 8 => '8' | 9 => '9' | 10 => 'a' | 11 => 'b' | 12 => 'c'
  | 13 => 'd' | 14 => 'e' | _ => 'f'

/-- Models `hashlib.sha1(url.encode('utf-8')).hexdigest()`. -/
def sha1hex (s : String) : String :=
  String.mk (((sha1Bytes (strBytes s)).map
    (fun b => [hexChar (b / 16), hexChar (b % 16)])).flatten)

/-- Models `_safe_filename_from_url` (script lines 10-18): the final path
segment of the URL with unsafe characters replaced by `_`, or the SHA-1
fallback name `image_<hexdigest>.jpg` when the path has no final segment. -/
def safeFilename (url : String) : String :=
  let name := pathName (pathOfUrl url)
  if name.isEmpty then "image_" ++ sha1hex url ++ ".jpg"
  else String.mk (sanitizeChars name)

/-- Renders the f-string `root_{i}_{name}` of script line 60. -/
def rootNameStr (i : Nat) (b : String) : String :=
  String.mk ('r' :: 'o' :: 'o' :: 't' :: '_' :: (natDigits i ++ '_' :: b.data))

/-- Renders the f-string `link_{link_count+1}_direct_{name}` of script
line 96 (for index argument `j = link_count + 1`). -/
def directNameStr (j : Nat) (b : String) : String :=
  String.mk ('l' :: 'i' :: 'n' :: 'k' :: '_' ::
    (natDigits j ++ '_' :: 'd' :: 'i' :: 'r' :: 'e' :: 'c' :: 't' :: '_' :: b.data))

/-- Renders the f-string `{link_count}_{idx}_{name}` of script line 128. -/
def pageNameStr (j k : Nat) (b : String) : String :=
  String.mk (natDigits j ++ '_' :: (natDigits k ++ '_' :: b.data))

/-- Whether the first list is an initial segment of the second; models
`str.startswith`. -/
def leadsWith : List Char → List Char → Bool
  | [], _ => true
  | _ :: _, [] => false
  | p :: ps, c :: cs => p == c && leadsWith ps cs

/-- Image extensions accepted by the direct-image test at script line 92,
with the leading dot of `PurePath.suffix`. -/
def imageExts : List String := [".jpg", ".jpeg", ".png", ".gif"]

/-- Models the condition of script line 92: the link is treated as a
direct image when the content type starts with `image/` or the lower-cased
path suffix is a known image extension. -/
def classifyDirect (ct : String) (url : String) : Bool :=
  leadsWith ('i' :: 'm' :: 'a' :: 'g' :: 'e' :: '/' :: []) ct.data ||
    imageExts.contains (String.mk ((suffixOfName (pathName (pathOfUrl url))).map Char.toLower))

/-- Image extensions as the specification words them, without the dot. -/
def specImageExts : List String := ["jpg", "jpeg", "png", "gif"]

/-- Drops a leading dot. -/
def stripDot (l : List Char) : List Char :=
  match l with
  | '.' :: r => r
  | l => l

/-- Modelled from the specification's words for the Link Classifier
(spec section 4.4): direct image iff the content type begins with the image
media-type prefix or the URL's path suffix is one of jpg, jpeg, png, gif
case-insensitively.  Used only to compare against `classifyDirect`. -/
def specClassifyDirect (ct : String) (url : String) : Bool :=
  leadsWith ('i' :: 'm' :: 'a' :: 'g' :: 'e' :: '/' :: []) ct.data ||
    specImageExts.contains
      (String.mk ((stripDot (suffixOfName (pathName (pathOfUrl url)))).map Char.toLower))

/-- An `<img>` element: its `src` and `data-src` attributes as
BeautifulSoup's `get` returns them (`none` models a missing attribute). -/
structure ImgTag where
  src : Option String
  dataSrc : Option String
  deriving DecidableEq, Repr

/-- Result of parsing an HTML document: its `<img>` elements and the
`href` values of its `<a href=...>` elements, in document order. -/
structure Page where
  imgs : List ImgTag
  anchors : List String
  deriving DecidableEq, Repr

/-- One successful HTTP response: declared content type, streamed body
chunks (as `iter_content` yields them), an optional failure point of the
stream (`some k`: a `requests.RequestException` is raised after `k` chunks
were yielded), and the `Page` that `BeautifulSoup` produces from the body
text when the response is parsed as HTML. -/
structure Response where
  contentType : String
  chunks : List String
  streamFail : Option Nat
  page : Page
  deriving DecidableEq, Repr

/-- The impure environment of one run: the outcome of `session.get` plus
`raise_for_status` for every URL (`none` models a raised
`requests.RequestException`), and whether `open(filepath, 'wb')` raises an
`OSError` for a given file name. -/
structure World where
  fetch : String → Option Response
  openFail : String → Bool

/-- Arguments of `download_images_from_linked_pages` that affect the
harvest loop (the output folder and dated flag only choose the directory,
modelled separately by `outputPath`). -/
structure Config where
  url : String
  sameDomain : Bool
  maxLinks : Option Nat
  deriving DecidableEq, Repr

/-- Observable steps of a run, in order: attempted image GETs, log lines,
files written (with the bytes that ended up in them), links skipped,
dispatched (fetched and classified) and scanned. -/
inductive Ev where
  | rootImgAttempt (url : String)
  | pageImgAttempt (url : String)
  | imgFetchError (url : String)
  | fileWritten (name : String) (content : String)
  | savedLog (name : String)
  | rootFetchError (url : String)
  | linkOriginSkipped (url : String)
  | linkFetchError (url : String)
  | linkDispatched (url : String) (direct : Bool)
  | pageScanned (url : String)
  deriving DecidableEq, Repr

/-- Value and trace of a completed (non-crashed) run: whether the function
returned the output path (root fetch succeeded) or `None`, and the events. -/
structure RunResult where
  retSome : Bool
  events : List Ev
  deriving DecidableEq, Repr

/-- Models `img_tag.get('src') or img_tag.get('data-src')` followed by the
`if not img_src` guard: the first truthy (present and non-empty) source
attribute, if any. -/
def usableSrc (t : ImgTag) : Option String :=
  match t.src with
  | some s => if s = "" then (match t.dataSrc with
      | some d => if d = "" then none else some d
      | none => none) else some s
  | none =>
    match t.dataSrc with
    | some d => if d = "" then none else some d
    | none => none

/-- Bytes that end up in the file for a response: all chunks joined, or
only the chunks yielded before the stream failed. -/
def respContent (r : Response) : String :=
  match r.streamFail with
  | none => String.join r.chunks
  | some k => String.join (r.chunks.take k)

/-- Results of a step of the run: `Except.ok evs` is normal completion
with the events `evs`; `Except.error evs` is a crash on an uncaught
exception, with `evs` the events that had already happened (in
particular, files written before the crash stay on disk). -/
def exEvents (x : Except (List Ev) (List Ev)) : List Ev :=
  match x with
  | Except.ok e => e
  | Except.error e => e

/-- Prepends already-emitted events to a later result, preserving
crashes: what happened before an abort is not undone by it. -/
def exSeq (head : List Ev) (x : Except (List Ev) (List Ev)) :
    Except (List Ev) (List Ev) :=
  match x with
  | Except.ok e => Except.ok (head ++ e)
  | Except.error e => Except.error (head ++ e)

/-- Sequences two steps: a crash in the first ends the run there, the
second otherwise runs after the first's events. -/
def exAndThen (x y : Except (List Ev) (List Ev)) : Except (List Ev) (List Ev) :=
  match x with
  | Except.error e => Except.error e
  | Except.ok e1 => exSeq e1 y

/-- Models the `open`/`iter_content`/`write` block shared by the three
save sites (script lines 62-65, 98-101, 130-133), for an already fetched
response.  An `OSError` from `open` is not caught anywhere in the script,
so it crashes the run (`Except.error []`, no file created); a
`RequestException` from `iter_content` is caught by the surrounding
handler, leaving the partially written file in place and logging the
error. -/
def writeResp (w : World) (r : Response) (srcUrl fn : String) :
    Except (List Ev) (List Ev) :=
  if w.openFail fn then Except.error []
  else
    match r.streamFail with
    | none => Except.ok [Ev.fileWritten fn (respContent r), Ev.savedLog fn]
    | some _ => Except.ok [Ev.fileWritten fn (respContent r), Ev.imgFetchError srcUrl]

/-- Models one image download: `session.get` (a failure is caught and
logged by the `except requests.RequestException` arm) followed by the
write block. -/
def fetchAndSave (w : World) (imgUrl fn : String) : Except (List Ev) (List Ev) :=
  match w.fetch imgUrl with
  | none => Except.ok [Ev.imgFetchError imgUrl]
  | some r => writeResp w r imgUrl fn

/-- Models one iteration of the root-image loop (script lines 51-68) for
the element at 1-based document position `i`.  The attempt event precedes
the save block, so it is part of the trace even when the write crashes. -/
def processRootImg (w : World) (baseUrl : String) (i : Nat) (t : ImgTag) :
    Except (List Ev) (List Ev) :=
  match usableSrc t with
  | none => Except.ok []
  | some s =>
    exSeq [Ev.rootImgAttempt (urljoin baseUrl s)]
      (fetchAndSave w (urljoin baseUrl s) (rootNameStr i (safeFilename (urljoin baseUrl s))))

/-- The root-image loop, enumerating from `i`. -/
def processRootImgs (w : World) (baseUrl : String) : Nat → List ImgTag → Except (List Ev) (List Ev)
  | _, [] => Except.ok []
  | i, t :: ts =>
    exAndThen (processRootImg w baseUrl i t) (processRootImgs w baseUrl (i + 1) ts)

/-- Models one iteration of the linked-page image loop (script lines
119-136) for link index `j` and 1-based image position `k`. -/
def processPageImg (w : World) (linkUrl : String) (j k : Nat) (t : ImgTag) :
    Except (List Ev) (List Ev) :=
  match usableSrc t with
  | none => Except.ok []
  | some s =>
    exSeq [Ev.pageImgAttempt (urljoin linkUrl s)]
      (fetchAndSave w (urljoin linkUrl s) (pageNameStr j k (safeFilename (urljoin linkUrl s))))

/-- The linked-page image loop, enumerating from `k`. -/
def processPageImgs (w : World) (linkUrl : String) (j : Nat) :
    Nat → List ImgTag → Except (List Ev) (List Ev)
  | _, [] => Except.ok []
  | k, t :: ts =>
    exAndThen (processPageImg w linkUrl j k t) (processPageImgs w linkUrl j (k + 1) ts)

/-- Models the guard `if max_links and link_count > max_links` of script
lines 107 and 112: Python truthiness makes both `None` and `0` skip the
check. -/
def budgetHit (maxLinks : Option Nat) (c : Nat) : Bool :=
  match maxLinks with
  | none => false
  | some k => decide (k ≠ 0) && decide (k < c)

/-- Models the link loop of script lines 74-136, with current
`link_count = c`: same-origin filter, link fetch, the direct-image branch
(save inside its own `try`, bump the count, budget check), and the HTML
branch (bump the count, budget check, read the body, scan the page,
download its images).

The body of an HTML-classified link is first read at line 115
(`link_resp.text`), outside every `try`: the link was fetched with
`stream=True` at line 83, so a mid-body network failure surfaces there as
an uncaught `RequestException` that aborts the whole run (modelled by
`Response.streamFail`).  The `linkDispatched` marker records a link that
was fetched, classified and routed: it is emitted with the budget break,
with a completed direct save, or once the HTML body has been read; the
link on which the line-115 read aborts the run contributes no events
(the script's own log line at 117 is also never printed there). -/
def processLinks (w : World) (cfg : Config) (baseNetloc : String) :
    Nat → List String → Except (List Ev) (List Ev)
  | _, [] => Except.ok []
  | c, href :: rest =>
    let linkUrl := urljoin cfg.url href
    if cfg.sameDomain && !(netlocOf linkUrl == baseNetloc) then
      exSeq [Ev.linkOriginSkipped linkUrl] (processLinks w cfg baseNetloc c rest)
    else
      match w.fetch linkUrl with
      | none =>
        exSeq [Ev.linkFetchError linkUrl] (processLinks w cfg baseNetloc c rest)
      | some r =>
        if classifyDirect r.contentType linkUrl then
          match writeResp w r linkUrl (directNameStr (c + 1) (safeFilename linkUrl)) with
          | Except.error e => Except.error e
          | Except.ok wevs =>
            if budgetHit cfg.maxLinks (c + 1) then
              Except.ok (Ev.linkDispatched linkUrl true :: wevs)
            else
              exSeq (Ev.linkDispatched linkUrl true :: wevs)
                (processLinks w cfg baseNetloc (c + 1) rest)
        else
          if budgetHit cfg.maxLinks (c + 1) then
            Except.ok [Ev.linkDispatched linkUrl false]
          else
            match r.streamFail with
            | some _ => Except.error []
            | none =>
              exSeq [Ev.linkDispatched linkUrl false, Ev.pageScanned linkUrl]
                (exAndThen (processPageImgs w linkUrl (c + 1) 1 r.page.imgs)
                  (processLinks w cfg baseNetloc (c + 1) rest))

/-- Models one call of `download_images_from_linked_pages`: fetch the root
(a failure is caught, logged and ends the call returning `None`), download
the root images, then walk the links.  `Except.error` is a crashed call
(an uncaught exception), carrying the events that already happened. -/
def run (w : World) (cfg : Config) : Except (List Ev) RunResult :=
  match w.fetch cfg.url with
  | none => Except.ok { retSome := false, events := [Ev.rootFetchError cfg.url] }
  | some resp =>
    match processRootImgs w cfg.url 1 resp.page.imgs with
    | Except.error e1 => Except.error e1
    | Except.ok e1 =>
      match processLinks w cfg (netlocOf cfg.url) 0 resp.page.anchors with
      | Except.error e2 => Except.error (e1 ++ e2)
      | Except.ok e2 => Except.ok { retSome := true, events := e1 ++ e2 }

/-- Events of a run: the full trace of a completed run, or everything
that had happened when a crashed run aborted (written files included). -/
def runEvents (w : World) (cfg : Config) : List Ev :=
  match run w cfg with
  | Except.ok r => r.events
  | Except.error e => e

/-- Process exit status of the `__main__` block: the script never calls
`sys.exit`, so a call that returns (normally or after the caught root
failure) exits with status 0; only an uncaught exception gives a non-zero
status. -/
def pyExitCode (r : Except (List Ev) RunResult) : Nat :=
  match r with
  | Except.ok _ => 0
  | Except.error _ => 1

/-- Names of the files written during a run. -/
def savedNames (evs : List Ev) : List String :=
  evs.filterMap (fun e => match e with
    | Ev.fileWritten n _ => some n
    | _ => none)

/-- Number of links dispatched into fetch/classify processing, i.e.
fetched successfully and classified. -/
def countDispatch (evs : List Ev) : Nat :=
  evs.countP (fun e => match e with | Ev.linkDispatched _ _ => true | _ => false)

/-- Number of download attempts made for root images. -/
def countRootAttempts (evs : List Ev) : Nat :=
  evs.countP (fun e => match e with | Ev.rootImgAttempt _ => true | _ => false)

/-- Number of image elements with a usable source attribute. -/
def countUsable (ts : List ImgTag) : Nat :=
  ts.countP (fun t => (usableSrc t).isSome)

/-- Classification the world assigns to a URL once fetched. -/
def classifiedDirectAt (w : World) (u : String) : Bool :=
  match w.fetch u with
  | some r => classifyDirect r.contentType u
  | none => false

/-- Reads a non-empty run of digits followed by `_`, returning the rest. -/
def readDigits (l : List Char) : Option (List Char) :=
  match l.dropWhile isDig with
  | '_' :: rest => if (l.takeWhile isDig).isEmpty then none else some rest
  | _ => none

/-- Checks that a file name follows one of the three naming schemes of the
script: `root_<digits>_...`, `link_<digits>_direct_...`, or
`<digits>_<digits>_...`. -/
def nameShapeOk (n : String) : Bool :=
  (leadsWith ('r' :: 'o' :: 'o' :: 't' :: '_' :: []) n.data &&
    (readDigits (n.data.drop 5)).isSome) ||
  (leadsWith ('l' :: 'i' :: 'n' :: 'k' :: '_' :: []) n.data &&
    (match readDigits (n.data.drop 5) with
     | some r => leadsWith ('d' :: 'i' :: 'r' :: 'e' :: 'c' :: 't' :: '_' :: []) r
     | none => false)) ||
  ((readDigits n.data).bind readDigits).isSome

/-- Checks that a file name is a direct-image name for the derived base
name `base`, i.e. `link_<digits>_direct_<base>`. -/
def isDirectSaveName (base : String) (n : String) : Bool :=
  leadsWith ('l' :: 'i' :: 'n' :: 'k' :: '_' :: []) n.data &&
    (match readDigits (n.data.drop 5) with
     | some r => leadsWith ('d' :: 'i' :: 'r' :: 'e' :: 'c' :: 't' :: '_' :: []) r &&
         (r.drop 7 == base.data)
     | none => false)

/-- Events produced by the shared write block and its surrounding fetch:
a written file, a success log, or a logged download error. -/
def saveKindEv (e : Ev) : Bool :=
  match e with
  | Ev.fileWritten _ _ => true
  | Ev.savedLog _ => true
  | Ev.imgFetchError _ => true
  | _ => false

/-- Events the root-image loop can produce. -/
def rootPhaseEv (e : Ev) : Bool :=
  saveKindEv e || (match e with | Ev.rootImgAttempt _ => true | _ => false)

/-- Events the linked-page image loop can produce. -/
def pagePhaseEv (e : Ev) : Bool :=
  saveKindEv e || (match e with | Ev.pageImgAttempt _ => true | _ => false)

/-- Events the link loop can produce. -/
def linkPhaseEv (e : Ev) : Bool :=
  pagePhaseEv e || (match e with
    | Ev.linkOriginSkipped _ => true
    | Ev.linkFetchError _ => true
    | Ev.linkDispatched _ _ => true
    | Ev.pageScanned _ => true
    | _ => false)

/-- Whether some written file of the trace is a direct-image save with the
given derived base name. -/
def hasDirectSaveFor (evs : List Ev) (base : String) : Bool :=
  evs.any (fun e => match e with
    | Ev.fileWritten n _ => isDirectSaveName base n
    | _ => false)

/-- Whether every dispatched link of the trace was successfully fetched. -/
def dispatchFetched (w : World) (evs : List Ev) : Bool :=
  evs.all (fun e => match e with
    | Ev.linkDispatched u _ => (w.fetch u).isSome
    | _ => true)

/-- Fields of `datetime.now()` that matter here; `micro` is the
sub-second part that `%S`-formatted names discard. -/
structure Timestamp where
  year : Nat
  month : Nat
  day : Nat
  hour : Nat
  minute : Nat
  second : Nat
  micro : Nat
  deriving DecidableEq, Repr

/-- Zero-padded two-digit field, as `strftime` renders `%m %d %H %M %S`
for their in-range values. -/
def pad2 (n : Nat) : List Char := [digitChar10 (n / 10 % 10), digitChar10 (n % 10)]

/-- Zero-padded four-digit field, as `strftime` renders `%Y` for years
below 10000. -/
def pad4 (n : Nat) : List Char :=
  [digitChar10 (n / 1000 % 10), digitChar10 (n / 100 % 10),
   digitChar10 (n / 10 % 10), digitChar10 (n % 10)]

/-- Models `datetime.now().strftime('images_%Y%m%d_%H%M%S')` (script
line 32). -/
def datedName (t : Timestamp) : String :=
  String.mk ('i' :: 'm' :: 'a' :: 'g' :: 'e' :: 's' :: '_' ::
    (pad4 t.year ++ pad2 t.month ++ pad2 t.day ++ '_' ::
      (pad2 t.hour ++ pad2 t.minute ++ pad2 t.second)))

/-- Models the output directory choice of script lines 30-35 (path join
written with `/`). -/
def outputPath (outputFolder : String) (dated : Bool) (t : Timestamp) : String :=
  if dated then outputFolder ++ "/" ++ datedName t else outputFolder

/-! Concrete runs used as witnesses and counterexamples.  Each world fixes
every GET result and every `open` outcome, so the corresponding run of the
script is fully determined and can be replayed by hand against the code. -/

/-- A parsed page with no images and no anchors. -/
def emptyPage : Page := { imgs := [], anchors := [] }

/-- An HTML response carrying the given parsed page. -/
def htmlResp (p : Page) : Response :=
  { contentType := "text/html", chunks := ["<html>"], streamFail := none, page := p }

/-- An `image/png` response with the given body chunks. -/
def pngResp (cs : List String) : Response :=
  { contentType := "image/png", chunks := cs, streamFail := none, page := emptyPage }

/-- World for C1: a root page with three same-origin HTML links. -/
def cw1 : World :=
  { fetch := fun u =>
      if u = "http://h/" then some (htmlResp { imgs := [], anchors := ["p1", "p2", "p3"] })
      else if u = "http://h/p1" then some (htmlResp emptyPage)
      else if u = "http://h/p2" then some (htmlResp emptyPage)
      else if u = "http://h/p3" then some (htmlResp emptyPage)
      else none,
    openFail := fun _ => false }

/-- Configuration with a link budget of 1 for C1. -/
def cfg1 : Config := { url := "http://h/", sameDomain := true, maxLinks := some 1 }

/-- World for C2: every GET fails, in particular the root fetch. -/
def cw2 : World := { fetch := fun _ => none, openFail := fun _ => false }

/-- Configuration for C2. -/
def cfg2 : Config := { url := "http://h/", sameDomain := true, maxLinks := none }

/-- World for C3's counterexample: two good root images, but opening the
file of the first one raises `OSError`. -/
def cw3 : World :=
  { fetch := fun u =>
      if u = "http://h/" then some (htmlResp
        { imgs := [{ src := some "a.png", dataSrc := none },
                   { src := some "b.png", dataSrc := none }], anchors := [] })
      else if u = "http://h/a.png" then some (pngResp ["AA"])
      else if u = "http://h/b.png" then some (pngResp ["BB"])
      else none,
    openFail := fun f => f = "root_1_a.png" }

/-- Configuration with no link budget, root `http://h/`. -/
def cfg3 : Config := { url := "http://h/", sameDomain := true, maxLinks := none }

/-- World for C3's witness: the first root image fetch fails, the second
succeeds, no file open fails. -/
def cw3b : World :=
  { fetch := fun u =>
      if u = "http://h/" then some (htmlResp
        { imgs := [{ src := some "a.png", dataSrc := none },
                   { src := some "b.png", dataSrc := none }], anchors := [] })
      else if u = "http://h/b.png" then some (pngResp ["BB"])
      else none,
    openFail := fun _ => false }

/-- World for C3's counterexample of the body-read path: the root page
has one same-origin link whose response is HTML but whose streamed body
fails mid-read, so `link_resp.text` (script line 115) raises outside any
`try`. -/
def cw3c : World :=
  { fetch := fun u =>
      if u = "http://h/" then some (htmlResp { imgs := [], anchors := ["p1"] })
      else if u = "http://h/p1" then some
        { contentType := "text/html", chunks := ["<ht", "ml>"], streamFail := some 1,
          page := emptyPage }
      else none,
    openFail := fun _ => false }

/-- World for C4: the single root image's stream fails after one of two
chunks, leaving a truncated file. -/
def cw4 : World :=
  { fetch := fun u =>
      if u = "http://h/" then some (htmlResp
        { imgs := [{ src := some "a.png", dataSrc := none }], anchors := [] })
      else if u = "http://h/a.png" then some
        { contentType := "image/png", chunks := ["ab", "cd"], streamFail := some 1,
          page := emptyPage }
      else none,
    openFail := fun _ => false }

/-- Configuration for C4. -/
def cfg4 : Config := { url := "http://h/", sameDomain := true, maxLinks := none }

/-- World for C6: an HTML link, a direct image link, and a second HTML
link that the budget of 2 cuts off after fetch/classify. -/
def cw6 : World :=
  { fetch := fun u =>
      if u = "http://h/" then some (htmlResp { imgs := [], anchors := ["p1", "i.png", "p2"] })
      else if u = "http://h/p1" then some (htmlResp emptyPage)
      else if u = "http://h/p2" then some (htmlResp emptyPage)
      else if u = "http://h/i.png" then some (pngResp ["IMG"])
      else none,
    openFail := fun _ => false }

/-- Configuration with a link budget of 2 for C6's counterexample. -/
def cfg6 : Config := { url := "http://h/", sameDomain := true, maxLinks := some 2 }

/-- Configuration without budget for C6's witness. -/
def cfg6b : Config := { url := "http://h/", sameDomain := true, maxLinks := none }

/-- World for C8: the root page has one image element without any source
attribute and one with a usable source. -/
def cw8 : World :=
  { fetch := fun u =>
      if u = "http://h/" then some (htmlResp
        { imgs := [{ src := none, dataSrc := none }], anchors := [] })
      else none,
    openFail := fun _ => false }

/-- World for C8's witness: an unusable image element followed by a usable
one whose download succeeds. -/
def cw8b : World :=
  { fetch := fun u =>
      if u = "http://h/" then some (htmlResp
        { imgs := [{ src := none, dataSrc := none },
                   { src := some "b.png", dataSrc := none }], anchors := [] })
      else if u = "http://h/b.png" then some (pngResp ["BB"])
      else none,
    openFail := fun _ => false }

/-- Configuration for C8. -/
def cfg8 : Config := { url := "http://h/", sameDomain := true, maxLinks := none }

/-- World for C10 and C5 instances: one HTML link with one image, one
direct image link. -/
def cw10 : World :=
  { fetch := fun u =>
      if u = "http://h/" then some (htmlResp
        { imgs := [{ src := some "a.png", dataSrc := none }],
          anchors := ["p1", "i.png"] })
      else if u = "http://h/a.png" then some (pngResp ["AA"])
      else if u = "http://h/p1" then some (htmlResp
        { imgs := [{ src := some "c.png", dataSrc := none }], anchors := [] })
      else if u = "http://h/c.png" then some (pngResp ["CC"])
      else if u = "http://h/i.png" then some (pngResp ["II"])
      else none,
    openFail := fun _ => false }

/-- Configuration with budget 0 for C10: Python treats `max_links=0` as
falsy, i.e. unbounded. -/
def cfg10 : Config := { url := "http://h/", sameDomain := true, maxLinks := some 0 }

/-- The same configuration with no budget at all. -/
def cfg10n : Config := { url := "http://h/", sameDomain := true, maxLinks := none }

/-- Two run start times within the same second (different microseconds)
for C9. -/
def ts1 : Timestamp :=
  { year := 2026, month := 10, day := 12, hour := 9, minute := 30, second := 7, micro := 0 }

/-- The second start time for C9. -/
def ts2 : Timestamp :=
  { year := 2026, month := 10, day := 12, hour := 9, minute := 30, second := 7, micro := 500000 }

/-! Digit strings: `natDigits` renders a number the way Python's `str`
does, and the rendering is injective because the value can be read back. -/

theorem isDig_digitChar10 (n : Nat) (h : n < 10) : isDig (digitChar10 n) = true := by
  interval_cases n <;> decide

theorem digitsVal_append_digit (l : List Char) (c : Char) :
    digitsVal (l ++ [c]) = 10 * digitsVal l + digToNat c := by
  simp [digitsVal, List.foldl_append, List.foldl]
  ring

theorem digToNat_digitChar10 (n : Nat) (h : n < 10) : digToNat (digitChar10 n) = n := by
  interval_cases n <;> decide

theorem digitsGo_spec (fuel : Nat) : ∀ n acc, n < fuel →
    ∃ ds, digitsGo fuel n acc = ds ++ acc ∧ ds ≠ [] ∧
      (∀ c ∈ ds, isDig c = true) ∧ digitsVal ds = n := by
  induction fuel with
  | zero => intro n acc h; omega
  | succ fuel ih =>
    intro n acc h
    by_cases h10 : n < 10
    · refine ⟨[digitChar10 n], ?_, by simp, ?_, ?_⟩
      · simp [digitsGo, h10]
      · intro c hc; simp at hc; subst hc; exact isDig_digitChar10 n h10
      · simp [digitsVal, digToNat_digitChar10 n h10]
    · have hlt : n / 10 < fuel := by omega
      obtain ⟨ds, heq, hne, hdig, hval⟩ := ih (n / 10) (digitChar10 (n % 10) :: acc) hlt
      refine ⟨ds ++ [digitChar10 (n % 10)], ?_, by simp, ?_, ?_⟩
      · simp [digitsGo, h10, heq]
      · intro c hc
        rcases List.mem_append.mp hc with hc | hc
        · exact hdig c hc
        · simp at hc; subst hc; exact isDig_digitChar10 _ (Nat.mod_lt n (by omega))
      · rw [digitsVal_append_digit, hval, digToNat_digitChar10 _ (Nat.mod_lt n (by omega))]
        omega

theorem natDigits_spec (n : Nat) :
    natDigits n ≠ [] ∧ (∀ c ∈ natDigits n, isDig c = true) ∧
      digitsVal (natDigits n) = n := by
  obtain ⟨ds, heq, hne, hdig, hval⟩ := digitsGo_spec (n + 1) n [] (by omega)
  have : natDigits n = ds := by simpa [natDigits] using heq
  rw [this]
  exact ⟨hne, hdig, hval⟩

theorem natDigits_ne_nil (n : Nat) : natDigits n ≠ [] := (natDigits_spec n).1

theorem natDigits_isDig (n : Nat) : ∀ c ∈ natDigits n, isDig c = true :=
  (natDigits_spec n).2.1

theorem natDigits_inj {m n : Nat} (h : natDigits m = natDigits n) : m = n := by
  have hm := (natDigits_spec m).2.2
  have hn := (natDigits_spec n).2.2
  rw [h] at hm
  omega

theorem digitRunSplit : ∀ (d1 : List Char) (r1 : List Char) (d2 : List Char) (r2 : List Char),
    (∀ c ∈ d1, isDig c = true) → (∀ c ∈ d2, isDig c = true) →
    d1 ++ '_' :: r1 = d2 ++ '_' :: r2 → d1 = d2 ∧ r1 = r2 := by
  intro d1
  induction d1 with
  | nil =>
    intro r1 d2 r2 _ hd2 heq
    cases d2 with
    | nil => simpa using heq
    | cons b t2 =>
      exfalso
      simp at heq
      have : isDig '_' = true := heq.1 ▸ hd2 b (by simp)
      simp [isDig] at this
  | cons a t1 ih =>
    intro r1 d2 r2 hd1 hd2 heq
    cases d2 with
    | nil =>
      exfalso
      simp at heq
      have : isDig '_' = true := heq.1 ▸ hd1 a (by simp)
      simp [isDig] at this
    | cons b t2 =>
      simp at heq
      obtain ⟨hab, htail⟩ := heq
      obtain ⟨ht, hr⟩ := ih r1 t2 r2 (fun c hc => hd1 c (by simp [hc]))
        (fun c hc => hd2 c (by simp [hc])) htail
      exact ⟨by simp [hab, ht], hr⟩

/-! Injectivity and mutual distinctness of the three file-name schemes. -/

theorem string_mk_inj {l1 l2 : List Char} (h : String.mk l1 = String.mk l2) : l1 = l2 := by
  injection h

theorem string_data_inj {s t : String} (h : s.data = t.data) : s = t := by
  cases s; cases t; exact congrArg String.mk h

theorem rootNameStr_inj {i i' : Nat} {b b' : String}
    (h : rootNameStr i b = rootNameStr i' b') : i = i' ∧ b = b' := by
  have h' := string_mk_inj h
  simp at h'
  obtain ⟨hd, hr⟩ := digitRunSplit _ _ _ _ (natDigits_isDig i) (natDigits_isDig i') h'
  exact ⟨natDigits_inj hd, string_data_inj hr⟩

theorem directNameStr_inj {j j' : Nat} {b b' : String}
    (h : directNameStr j b = directNameStr j' b') : j = j' ∧ b = b' := by
  have h' := string_mk_inj h
  simp at h'
  obtain ⟨hd, hr⟩ := digitRunSplit _ _ _ _ (natDigits_isDig j) (natDigits_isDig j') h'
  simp at hr
  exact ⟨natDigits_inj hd, string_data_inj hr⟩

theorem pageNameStr_inj {j j' k k' : Nat} {b b' : String}
    (h : pageNameStr j k b = pageNameStr j' k' b') : j = j' ∧ k = k' ∧ b = b' := by
  have h' := string_mk_inj h
  obtain ⟨hd, hr⟩ := digitRunSplit _ _ _ _ (natDigits_isDig j) (natDigits_isDig j') h'
  obtain ⟨hd2, hr2⟩ := digitRunSplit _ _ _ _ (natDigits_isDig k) (natDigits_isDig k') hr
  exact ⟨natDigits_inj hd, natDigits_inj hd2, string_data_inj hr2⟩

theorem rootNameStr_ne_directNameStr (i j : Nat) (b b' : String) :
    rootNameStr i b ≠ directNameStr j b' := by
  intro h
  have h' := string_mk_inj h
  simp at h'

theorem rootNameStr_ne_pageNameStr (i j k : Nat) (b b' : String) :
    rootNameStr i b ≠ pageNameStr j k b' := by
  intro h
  have h' := string_mk_inj h
  obtain ⟨c, cs, hc⟩ := List.exists_cons_of_ne_nil (natDigits_ne_nil j)
  rw [hc] at h'
  simp at h'
  have : isDig 'r' = true := by
    rw [h'.1]
    exact natDigits_isDig j c (by simp [hc])
  simp [isDig] at this

theorem directNameStr_ne_pageNameStr (i j k : Nat) (b b' : String) :
    directNameStr i b ≠ pageNameStr j k b' := by
  intro h
  have h' := string_mk_inj h
  obtain ⟨c, cs, hc⟩ := List.exists_cons_of_ne_nil (natDigits_ne_nil j)
  rw [hc] at h'
  simp at h'
  have : isDig 'l' = true := by
    rw [h'.1]
    exact natDigits_isDig j c (by simp [hc])
  simp [isDig] at this

/-! Reading back a digit run, used to recognise generated file names. -/

theorem takeDropDig {ds : List Char} (hdig : ∀ c ∈ ds, isDig c = true) (r : List Char) :
    (ds ++ '_' :: r).takeWhile isDig = ds ∧ (ds ++ '_' :: r).dropWhile isDig = '_' :: r := by
  induction ds with
  | nil => simp [List.takeWhile, List.dropWhile, isDig]
  | cons a t ih =>
    have ha : isDig a = true := hdig a (by simp)
    obtain ⟨h1, h2⟩ := ih (fun c hc => hdig c (by simp [hc]))
    constructor
    · simpa [List.takeWhile, ha] using h1
    · simpa [List.dropWhile, ha] using h2

theorem readDigits_run {ds : List Char} (hdig : ∀ c ∈ ds, isDig c = true)
    (hne : ds ≠ []) (r : List Char) : readDigits (ds ++ '_' :: r) = some r := by
  obtain ⟨h1, h2⟩ := takeDropDig hdig r
  simp [readDigits, h1, h2, hne]

theorem nameShapeOk_root (i : Nat) (b : String) : nameShapeOk (rootNameStr i b) = true := by
  have : (rootNameStr i b).data.drop 5 = natDigits i ++ '_' :: b.data := rfl
  simp only [nameShapeOk, this, readDigits_run (natDigits_isDig i) (natDigits_ne_nil i)]
  simp [leadsWith, rootNameStr]

theorem nameShapeOk_direct (j : Nat) (b : String) : nameShapeOk (directNameStr j b) = true := by
  have : (directNameStr j b).data.drop 5 =
      natDigits j ++ '_' :: 'd' :: 'i' :: 'r' :: 'e' :: 'c' :: 't' :: '_' :: b.data := rfl
  simp only [nameShapeOk, this, readDigits_run (natDigits_isDig j) (natDigits_ne_nil j)]
  simp [leadsWith, directNameStr]

theorem nameShapeOk_page (j k : Nat) (b : String) : nameShapeOk (pageNameStr j k b) = true := by
  have h1 : (pageNameStr j k b).data = natDigits j ++ '_' :: (natDigits k ++ '_' :: b.data) := rfl
  simp only [nameShapeOk, h1, readDigits_run (natDigits_isDig j) (natDigits_ne_nil j),
    Option.some_bind]
  rw [readDigits_run (natDigits_isDig k) (natDigits_ne_nil k)]
  simp

theorem isDirectSaveName_self (j : Nat) (b : String) :
    isDirectSaveName b (directNameStr j b) = true := by
  have : (directNameStr j b).data.drop 5 =
      natDigits j ++ '_' :: 'd' :: 'i' :: 'r' :: 'e' :: 'c' :: 't' :: '_' :: b.data := rfl
  simp only [isDirectSaveName, this, readDigits_run (natDigits_isDig j) (natDigits_ne_nil j)]
  simp [leadsWith, directNameStr]

/-! Plumbing for step results: events of a step, sequencing, inversions. -/

theorem exEvents_ok (e : List Ev) : exEvents (Except.ok e) = e := rfl

theorem exEvents_error (e : List Ev) : exEvents (Except.error e : Except (List Ev) (List Ev)) = e := rfl

theorem exEvents_exSeq (h : List Ev) (x : Except (List Ev) (List Ev)) :
    exEvents (exSeq h x) = h ++ exEvents x := by
  cases x <;> rfl

theorem exAndThen_er (e : List Ev) (y : Except (List Ev) (List Ev)) :
    exAndThen (Except.error e) y = Except.error e := rfl

theorem exAndThen_okl (e : List Ev) (y : Except (List Ev) (List Ev)) :
    exAndThen (Except.ok e) y = exSeq e y := rfl

theorem mem_exEvents_exAndThen {x y : Except (List Ev) (List Ev)} {e : Ev}
    (he : e ∈ exEvents (exAndThen x y)) : e ∈ exEvents x ∨ e ∈ exEvents y := by
  cases x with
  | error e1 => exact Or.inl he
  | ok e1 =>
    rw [exAndThen_okl, exEvents_exSeq] at he
    rcases List.mem_append.mp he with h | h
    · exact Or.inl h
    · exact Or.inr h

theorem exSeq_ok_inv {h : List Ev} {x : Except (List Ev) (List Ev)} {evs : List Ev}
    (he : exSeq h x = Except.ok evs) : ∃ e, x = Except.ok e ∧ evs = h ++ e := by
  cases x with
  | error e1 => simp [exSeq] at he
  | ok e1 =>
    simp [exSeq] at he
    exact ⟨e1, rfl, he.symm⟩

theorem exAndThen_ok_inv {x y : Except (List Ev) (List Ev)} {evs : List Ev}
    (he : exAndThen x y = Except.ok evs) :
    ∃ e1 e2, x = Except.ok e1 ∧ y = Except.ok e2 ∧ evs = e1 ++ e2 := by
  cases x with
  | error e1 => simp [exAndThen] at he
  | ok e1 =>
    rw [exAndThen_okl] at he
    obtain ⟨e2, hy, hevs⟩ := exSeq_ok_inv he
    exact ⟨e1, e2, rfl, hy, hevs⟩

theorem runEvents_none {w : World} {cfg : Config} (h : w.fetch cfg.url = none) :
    runEvents w cfg = [Ev.rootFetchError cfg.url] := by
  unfold runEvents run
  simp only [h]

theorem runEvents_rootCrash {w : World} {cfg : Config} {resp : Response} {e1 : List Ev}
    (h : w.fetch cfg.url = some resp)
    (h1 : processRootImgs w cfg.url 1 resp.page.imgs = Except.error e1) :
    runEvents w cfg = e1 := by
  unfold runEvents run
  simp only [h, h1]

theorem runEvents_phases {w : World} {cfg : Config} {resp : Response} {e1 : List Ev}
    (h : w.fetch cfg.url = some resp)
    (h1 : processRootImgs w cfg.url 1 resp.page.imgs = Except.ok e1) :
    runEvents w cfg =
      e1 ++ exEvents (processLinks w cfg (netlocOf cfg.url) 0 resp.page.anchors) := by
  unfold runEvents run
  simp only [h, h1]
  cases h2 : processLinks w cfg (netlocOf cfg.url) 0 resp.page.anchors <;>
    simp only [h2, exEvents_error, exEvents_ok]

/-! Event kinds: each loop of the script only produces its own events. -/

theorem writeResp_kinds {w r u fn} :
    ∀ e ∈ exEvents (writeResp w r u fn), saveKindEv e = true := by
  intro e he
  unfold writeResp at he
  split at he
  · simp [exEvents] at he
  · split at he <;>
      (simp [exEvents] at he; rcases he with he | he <;> simp [he, saveKindEv])

theorem writeResp_error {w r u fn e} (h : writeResp w r u fn = Except.error e) :
    e = [] := by
  unfold writeResp at h
  split at h
  · injection h with h
    exact h.symm
  · split at h <;> simp at h

theorem fetchAndSave_kinds {w iu fn} :
    ∀ e ∈ exEvents (fetchAndSave w iu fn), saveKindEv e = true := by
  intro e he
  unfold fetchAndSave at he
  split at he
  · simp [exEvents] at he; simp [he, saveKindEv]
  · exact writeResp_kinds e he

theorem processRootImg_kinds {w u i t} :
    ∀ e ∈ exEvents (processRootImg w u i t), rootPhaseEv e = true := by
  intro e he
  unfold processRootImg at he
  split at he
  · simp [exEvents] at he
  · rw [exEvents_exSeq] at he
    rcases List.mem_append.mp he with he | he
    · simp at he; simp [he, rootPhaseEv, saveKindEv]
    · have := fetchAndSave_kinds e he
      simp [rootPhaseEv, this]

theorem processRootImgs_kinds {w u} :
    ∀ ts i, ∀ e ∈ exEvents (processRootImgs w u i ts), rootPhaseEv e = true := by
  intro ts
  induction ts with
  | nil => intro i e he; simp [processRootImgs, exEvents] at he
  | cons t ts ih =>
    intro i e he
    rw [processRootImgs] at he
    rcases mem_exEvents_exAndThen he with he | he
    · exact processRootImg_kinds e he
    · exact ih (i + 1) e he

theorem processPageImg_kinds {w lu j k t} :
    ∀ e ∈ exEvents (processPageImg w lu j k t), pagePhaseEv e = true := by
  intro e he
  unfold processPageImg at he
  split at he
  · simp [exEvents] at he
  · rw [exEvents_exSeq] at he
    rcases List.mem_append.mp he with he | he
    · simp at he; simp [he, pagePhaseEv, saveKindEv]
    · have := fetchAndSave_kinds e he
      simp [pagePhaseEv, this]

theorem processPageImgs_kinds {w lu j} :
    ∀ ts k, ∀ e ∈ exEvents (processPageImgs w lu j k ts), pagePhaseEv e = true := by
  intro ts
  induction ts with
  | nil => intro k e he; simp [processPageImgs, exEvents] at he
  | cons t ts ih =>
    intro k e he
    rw [processPageImgs] at he
    rcases mem_exEvents_exAndThen he with he | he
    · exact processPageImg_kinds e he
    · exact ih (k + 1) e he

theorem saveKindEv_link {e : Ev} (h : saveKindEv e = true) : linkPhaseEv e = true := by
  simp [linkPhaseEv, pagePhaseEv, h]

theorem pagePhaseEv_link {e : Ev} (h : pagePhaseEv e = true) : linkPhaseEv e = true := by
  simp [linkPhaseEv, h]

theorem processLinks_kinds {w cfg bn} :
    ∀ hrefs c, ∀ e ∈ exEvents (processLinks w cfg bn c hrefs), linkPhaseEv e = true := by
  intro hrefs
  induction hrefs with
  | nil => intro c e he; simp [processLinks, exEvents] at he
  | cons href rest ih =>
    intro c e he
    rw [processLinks] at he
    split at he
    · rw [exEvents_exSeq] at he
      rcases List.mem_append.mp he with he | he
      · simp at he; simp [he, linkPhaseEv]
      · exact ih c e he
    · split at he
      · rw [exEvents_exSeq] at he
        rcases List.mem_append.mp he with he | he
        · simp at he; simp [he, linkPhaseEv]
        · exact ih c e he
      · rename_i r hfetch
        split at he
        · cases hw : writeResp w r (urljoin cfg.url href)
              (directNameStr (c + 1) (safeFilename (urljoin cfg.url href))) with
          | error ew =>
            rw [hw] at he
            rw [writeResp_error hw] at he
            simp [exEvents] at he
          | ok wevs =>
            simp only [hw] at he
            split at he
            · simp [exEvents] at he
              rcases he with he | he
              · simp [he, linkPhaseEv]
              · exact saveKindEv_link (writeResp_kinds e (by rw [hw]; exact he))
            · rw [exEvents_exSeq] at he
              rcases List.mem_append.mp he with he | he
              · simp at he
                rcases he with he | he
                · simp [he, linkPhaseEv]
                · exact saveKindEv_link (writeResp_kinds e (by rw [hw]; exact he))
              · exact ih (c + 1) e he
        · split at he
          · simp [exEvents] at he
            simp [he, linkPhaseEv]
          · split at he
            · simp [exEvents] at he
            · rw [exEvents_exSeq] at he
              rcases List.mem_append.mp he with he | he
              · simp at he
                rcases he with he | he <;> simp [he, linkPhaseEv]
              · rcases mem_exEvents_exAndThen he with he | he
                · exact pagePhaseEv_link (processPageImgs_kinds r.page.imgs 1 e he)
                · exact ih (c + 1) e he

/-! Saved file names of each loop: shape and freedom from duplicates,
    also on the partial trace of a crashed run. -/

theorem savedNames_append (a b : List Ev) :
    savedNames (a ++ b) = savedNames a ++ savedNames b := by
  simp [savedNames]

theorem savedNames_cons_dispatched (u : String) (b : Bool) (l : List Ev) :
    savedNames (Ev.linkDispatched u b :: l) = savedNames l := by
  simp [savedNames]

theorem savedNames_cons_scanned (u : String) (l : List Ev) :
    savedNames (Ev.pageScanned u :: l) = savedNames l := by
  simp [savedNames]

theorem savedNames_cons_skip (u : String) (l : List Ev) :
    savedNames (Ev.linkOriginSkipped u :: l) = savedNames l := by
  simp [savedNames]

theorem savedNames_cons_linkErr (u : String) (l : List Ev) :
    savedNames (Ev.linkFetchError u :: l) = savedNames l := by
  simp [savedNames]

theorem writeResp_savedNames {w r u fn evs} (h : writeResp w r u fn = Except.ok evs) :
    savedNames evs = [fn] := by
  unfold writeResp at h
  split at h
  · simp at h
  · split at h <;> (simp at h; subst h; simp [savedNames])

theorem writeResp_savedNames_ex {w r u fn} :
    savedNames (exEvents (writeResp w r u fn)) = [] ∨
      savedNames (exEvents (writeResp w r u fn)) = [fn] := by
  cases h : writeResp w r u fn with
  | error e =>
    left
    rw [exEvents_error, writeResp_error h]
    rfl
  | ok evs =>
    right
    rw [exEvents_ok]
    exact writeResp_savedNames h

theorem fetchAndSave_savedNames_ex {w iu fn} :
    savedNames (exEvents (fetchAndSave w iu fn)) = [] ∨
      savedNames (exEvents (fetchAndSave w iu fn)) = [fn] := by
  unfold fetchAndSave
  split
  · left; simp [exEvents, savedNames]
  · exact writeResp_savedNames_ex

theorem processRootImg_savedNames_ex {w u i t} :
    savedNames (exEvents (processRootImg w u i t)) = [] ∨
      ∃ b, savedNames (exEvents (processRootImg w u i t)) = [rootNameStr i b] := by
  unfold processRootImg
  split
  · left; simp [exEvents, savedNames]
  · rw [exEvents_exSeq, savedNames_append]
    rcases @fetchAndSave_savedNames_ex w _ _ with hn | hn
    · left; rw [hn]; rfl
    · right; exact ⟨_, by rw [hn]; rfl⟩

theorem processPageImg_savedNames_ex {w lu j k t} :
    savedNames (exEvents (processPageImg w lu j k t)) = [] ∨
      ∃ b, savedNames (exEvents (processPageImg w lu j k t)) = [pageNameStr j k b] := by
  unfold processPageImg
  split
  · left; simp [exEvents, savedNames]
  · rw [exEvents_exSeq, savedNames_append]
    rcases @fetchAndSave_savedNames_ex w _ _ with hn | hn
    · left; rw [hn]; rfl
    · right; exact ⟨_, by rw [hn]; rfl⟩

theorem processRootImgs_names {w u} :
    ∀ ts i, (savedNames (exEvents (processRootImgs w u i ts))).Nodup ∧
      ∀ n ∈ savedNames (exEvents (processRootImgs w u i ts)),
        ∃ j b, i ≤ j ∧ n = rootNameStr j b := by
  intro ts
  induction ts with
  | nil =>
    intro i
    simp [processRootImgs, exEvents, savedNames]
  | cons t ts ih =>
    intro i
    rw [processRootImgs]
    cases h1 : processRootImg w u i t with
    | error e1 =>
      rw [exAndThen_er, exEvents_error]
      have hx := @processRootImg_savedNames_ex w u i t
      rw [h1, exEvents_error] at hx
      rcases hx with hn1 | ⟨b, hn1⟩
      · rw [hn1]; simp
      · rw [hn1]
        refine ⟨by simp, ?_⟩
        intro n hn
        simp at hn
        exact ⟨i, b, le_refl i, hn⟩
    | ok e1 =>
      rw [exAndThen_okl, exEvents_exSeq, savedNames_append]
      have hx := @processRootImg_savedNames_ex w u i t
      rw [h1, exEvents_ok] at hx
      obtain ⟨hnd2, hsh2⟩ := ih (i + 1)
      rcases hx with hn1 | ⟨b, hn1⟩
      · rw [hn1]
        simp only [List.nil_append]
        exact ⟨hnd2, fun n hn => by
          obtain ⟨j, b, hj, hb⟩ := hsh2 n hn
          exact ⟨j, b, by omega, hb⟩⟩
      · rw [hn1]
        constructor
        · rw [List.nodup_append]
          refine ⟨by simp, hnd2, ?_⟩
          intro a ha hmem
          simp at ha
          subst ha
          obtain ⟨j, b', hj, hb⟩ := hsh2 _ hmem
          obtain ⟨hij, _⟩ := rootNameStr_inj hb
          omega
        · intro n hn
          rcases List.mem_append.mp hn with hn | hn
          · simp at hn
            exact ⟨i, b, by omega, hn⟩
          · obtain ⟨j, b', hj, hb⟩ := hsh2 n hn
            exact ⟨j, b', by omega, hb⟩

theorem processPageImgs_names {w lu j} :
    ∀ ts k, (savedNames (exEvents (processPageImgs w lu j k ts))).Nodup ∧
      ∀ n ∈ savedNames (exEvents (processPageImgs w lu j k ts)),
        ∃ kk b, k ≤ kk ∧ n = pageNameStr j kk b := by
  intro ts
  induction ts with
  | nil =>
    intro k
    simp [processPageImgs, exEvents, savedNames]
  | cons t ts ih =>
    intro k
    rw [processPageImgs]
    cases h1 : processPageImg w lu j k t with
    | error e1 =>
      rw [exAndThen_er, exEvents_error]
      have hx := @processPageImg_savedNames_ex w lu j k t
      rw [h1, exEvents_error] at hx
      rcases hx with hn1 | ⟨b, hn1⟩
      · rw [hn1]; simp
      · rw [hn1]
        refine ⟨by simp, ?_⟩
        intro n hn
        simp at hn
        exact ⟨k, b, le_refl k, hn⟩
    | ok e1 =>
      rw [exAndThen_okl, exEvents_exSeq, savedNames_append]
      have hx := @processPageImg_savedNames_ex w lu j k t
      rw [h1, exEvents_ok] at hx
      obtain ⟨hnd2, hsh2⟩ := ih (k + 1)
      rcases hx with hn1 | ⟨b, hn1⟩
      · rw [hn1]
        simp only [List.nil_append]
        exact ⟨hnd2, fun n hn => by
          obtain ⟨kk, b, hk, hb⟩ := hsh2 n hn
          exact ⟨kk, b, by omega, hb⟩⟩
      · rw [hn1]
        constructor
        · rw [List.nodup_append]
          refine ⟨by simp, hnd2, ?_⟩
          intro a ha hmem
          simp at ha
          subst ha
          obtain ⟨kk, b', hk, hb⟩ := hsh2 _ hmem
          obtain ⟨_, hkk, _⟩ := pageNameStr_inj hb
          omega
        · intro n hn
          rcases List.mem_append.mp hn with hn | hn
          · simp at hn
            exact ⟨k, b, by omega, hn⟩
          · obtain ⟨kk, b', hk, hb⟩ := hsh2 n hn
            exact ⟨kk, b', by omega, hb⟩

theorem processLinks_names {w cfg bn} :
    ∀ hrefs c, (savedNames (exEvents (processLinks w cfg bn c hrefs))).Nodup ∧
      ∀ n ∈ savedNames (exEvents (processLinks w cfg bn c hrefs)), ∃ jj, c < jj ∧
        ((∃ b, n = directNameStr jj b) ∨ ∃ kk b, 1 ≤ kk ∧ n = pageNameStr jj kk b) := by
  intro hrefs
  induction hrefs with
  | nil =>
    intro c
    simp [processLinks, exEvents, savedNames]
  | cons href rest ih =>
    intro c
    rw [processLinks]
    split
    · rw [exEvents_exSeq]
      simp only [List.singleton_append, savedNames_cons_skip]
      exact ih c
    · split
      · rw [exEvents_exSeq]
        simp only [List.singleton_append, savedNames_cons_linkErr]
        exact ih c
      · rename_i r hfetch
        split
        · cases hw : writeResp w r (urljoin cfg.url href)
              (directNameStr (c + 1) (safeFilename (urljoin cfg.url href))) with
          | error ew =>
            simp only [hw, exEvents_error, writeResp_error hw]
            simp [savedNames]
          | ok wevs =>
            simp only [hw]
            split
            · rw [exEvents_ok, savedNames_cons_dispatched, writeResp_savedNames hw]
              refine ⟨by simp, ?_⟩
              intro n hmem
              simp at hmem
              exact ⟨c + 1, by omega, Or.inl ⟨_, hmem⟩⟩
            · rw [exEvents_exSeq, List.cons_append, savedNames_cons_dispatched,
                savedNames_append, writeResp_savedNames hw]
              obtain ⟨hnd1, hsh1⟩ := ih (c + 1)
              constructor
              · rw [List.singleton_append, List.nodup_cons]
                refine ⟨?_, hnd1⟩
                intro hmem
                obtain ⟨jj, hjj, hcase⟩ := hsh1 _ hmem
                rcases hcase with ⟨b, hb⟩ | ⟨kk, b, hk1, hb⟩
                · obtain ⟨hj, _⟩ := directNameStr_inj hb
                  omega
                · exact directNameStr_ne_pageNameStr _ _ _ _ _ hb
              · intro n hmem
                rcases List.mem_append.mp hmem with hmem | hmem
                · simp at hmem
                  exact ⟨c + 1, by omega, Or.inl ⟨_, hmem⟩⟩
                · obtain ⟨jj, hjj, hcase⟩ := hsh1 n hmem
                  exact ⟨jj, by omega, hcase⟩
        · split
          · simp [exEvents, savedNames]
          · split
            · simp [exEvents, savedNames]
            · rw [exEvents_exSeq]
              simp only [List.cons_append, List.nil_append,
                savedNames_cons_dispatched, savedNames_cons_scanned]
              obtain ⟨hndp, hshp⟩ := processPageImgs_names r.page.imgs 1
              obtain ⟨hnd1, hsh1⟩ := ih (c + 1)
              cases hp : processPageImgs w (urljoin cfg.url href) (c + 1) 1 r.page.imgs with
              | error ep =>
                rw [hp, exEvents_error] at hndp hshp
                rw [exAndThen_er, exEvents_error]
                refine ⟨hndp, ?_⟩
                intro n hmem
                obtain ⟨kk, b, hk, hb⟩ := hshp n hmem
                exact ⟨c + 1, by omega, Or.inr ⟨kk, b, by omega, hb⟩⟩
              | ok pevs =>
                rw [hp, exEvents_ok] at hndp hshp
                rw [exAndThen_okl, exEvents_exSeq, savedNames_append]
                constructor
                · rw [List.nodup_append]
                  refine ⟨hndp, hnd1, ?_⟩
                  intro a ha hmem
                  obtain ⟨kk, b, hk, hb⟩ := hshp a ha
                  obtain ⟨jj, hjj, hcase⟩ := hsh1 a hmem
                  subst hb
                  rcases hcase with ⟨b', hb'⟩ | ⟨kk', b', hk1, hb'⟩
                  · exact directNameStr_ne_pageNameStr _ _ _ _ _ hb'.symm
                  · obtain ⟨hj, _, _⟩ := pageNameStr_inj hb'
                    omega
                · intro n hmem
                  rcases List.mem_append.mp hmem with hmem | hmem
                  · obtain ⟨kk, b, hk, hb⟩ := hshp n hmem
                    exact ⟨c + 1, by omega, Or.inr ⟨kk, b, by omega, hb⟩⟩
                  · obtain ⟨jj, hjj, hcase⟩ := hsh1 n hmem
                    exact ⟨jj, by omega, hcase⟩

theorem savedNames_root_link {e1 e2 : List Ev}
    (hnd1 : (savedNames e1).Nodup)
    (hsh1 : ∀ n ∈ savedNames e1, ∃ j b, 1 ≤ j ∧ n = rootNameStr j b)
    (hnd2 : (savedNames e2).Nodup)
    (hsh2 : ∀ n ∈ savedNames e2, ∃ jj, 0 < jj ∧
      ((∃ b, n = directNameStr jj b) ∨ ∃ kk b, 1 ≤ kk ∧ n = pageNameStr jj kk b)) :
    (savedNames (e1 ++ e2)).Nodup ∧
      ∀ n ∈ savedNames (e1 ++ e2),
        (∃ i b, 1 ≤ i ∧ n = rootNameStr i b) ∨
        (∃ j b, 1 ≤ j ∧ n = directNameStr j b) ∨
        (∃ j k b, 1 ≤ j ∧ 1 ≤ k ∧ n = pageNameStr j k b) := by
  rw [savedNames_append]
  constructor
  · rw [List.nodup_append]
    refine ⟨hnd1, hnd2, ?_⟩
    intro a ha hmem
    obtain ⟨i, b, hi, hb⟩ := hsh1 a ha
    obtain ⟨jj, hjj, hcase⟩ := hsh2 a hmem
    subst hb
    rcases hcase with ⟨b', hb'⟩ | ⟨kk, b', hk1, hb'⟩
    · exact rootNameStr_ne_directNameStr _ _ _ _ hb'
    · exact rootNameStr_ne_pageNameStr _ _ _ _ _ hb'
  · intro n hn
    rcases List.mem_append.mp hn with hn | hn
    · obtain ⟨i, b, hi, hb⟩ := hsh1 n hn
      exact Or.inl ⟨i, b, hi, hb⟩
    · obtain ⟨jj, hjj, hcase⟩ := hsh2 n hn
      rcases hcase with ⟨b, hb⟩ | ⟨kk, b, hk1, hb⟩
      · exact Or.inr (Or.inl ⟨jj, b, by omega, hb⟩)
      · exact Or.inr (Or.inr ⟨jj, kk, b, by omega, by omega, hb⟩)

theorem run_savedNames (w : World) (cfg : Config) :
    (savedNames (runEvents w cfg)).Nodup ∧
      ∀ n ∈ savedNames (runEvents w cfg),
        (∃ i b, 1 ≤ i ∧ n = rootNameStr i b) ∨
        (∃ j b, 1 ≤ j ∧ n = directNameStr j b) ∨
        (∃ j k b, 1 ≤ j ∧ 1 ≤ k ∧ n = pageNameStr j k b) := by
  cases hroot : w.fetch cfg.url with
  | none => rw [runEvents_none hroot]; simp [savedNames]
  | some resp =>
    obtain ⟨hnd1, hsh1⟩ := @processRootImgs_names w cfg.url resp.page.imgs 1
    obtain ⟨hnd2, hsh2⟩ := @processLinks_names w cfg (netlocOf cfg.url) resp.page.anchors 0
    cases h1 : processRootImgs w cfg.url 1 resp.page.imgs with
    | error e1 =>
      rw [runEvents_rootCrash hroot h1]
      rw [h1, exEvents_error] at hnd1 hsh1
      exact ⟨hnd1, fun n hn => Or.inl (hsh1 n hn)⟩
    | ok e1 =>
      rw [runEvents_phases hroot h1]
      rw [h1, exEvents_ok] at hnd1 hsh1
      exact savedNames_root_link hnd1 hsh1 hnd2 hsh2

/-! Crash freedom: when no file open fails, every loop returns normally,
because all other failures are caught by the script's handlers. -/

theorem writeResp_isOk {w : World} {fn : String} (r : Response) (u : String)
    (hop : w.openFail fn = false) : ∃ evs, writeResp w r u fn = Except.ok evs := by
  unfold writeResp
  rw [hop]
  cases r.streamFail <;> simp

theorem fetchAndSave_isOk {w : World} (iu fn : String)
    (hop : ∀ f, w.openFail f = false) : ∃ evs, fetchAndSave w iu fn = Except.ok evs := by
  unfold fetchAndSave
  cases w.fetch iu with
  | none => simp
  | some r => exact writeResp_isOk r iu (hop fn)

theorem processRootImg_isOk {w : World} (u : String) (i : Nat) (t : ImgTag)
    (hop : ∀ f, w.openFail f = false) : ∃ evs, processRootImg w u i t = Except.ok evs := by
  cases hus : usableSrc t with
  | none => exact ⟨[], by simp [processRootImg, hus]⟩
  | some s =>
    obtain ⟨evs, he⟩ := @fetchAndSave_isOk w (urljoin u s)
      (rootNameStr i (safeFilename (urljoin u s))) hop
    refine ⟨Ev.rootImgAttempt (urljoin u s) :: evs, ?_⟩
    simp [processRootImg, hus, he, exSeq]

theorem processRootImgs_isOk {w : World} (u : String)
    (hop : ∀ f, w.openFail f = false) :
    ∀ ts i, ∃ evs, processRootImgs w u i ts = Except.ok evs := by
  intro ts
  induction ts with
  | nil => intro i; simp [processRootImgs]
  | cons t ts ih =>
    intro i
    obtain ⟨e1, h1⟩ := processRootImg_isOk u i t hop
    obtain ⟨e2, h2⟩ := ih (i + 1)
    refine ⟨e1 ++ e2, ?_⟩
    rw [processRootImgs, h1, h2]
    rfl

theorem processPageImg_isOk {w : World} (lu : String) (j k : Nat) (t : ImgTag)
    (hop : ∀ f, w.openFail f = false) : ∃ evs, processPageImg w lu j k t = Except.ok evs := by
  cases hus : usableSrc t with
  | none => exact ⟨[], by simp [processPageImg, hus]⟩
  | some s =>
    obtain ⟨evs, he⟩ := @fetchAndSave_isOk w (urljoin lu s)
      (pageNameStr j k (safeFilename (urljoin lu s))) hop
    refine ⟨Ev.pageImgAttempt (urljoin lu s) :: evs, ?_⟩
    simp [processPageImg, hus, he, exSeq]

theorem processPageImgs_isOk {w : World} (lu : String) (j : Nat)
    (hop : ∀ f, w.openFail f = false) :
    ∀ ts k, ∃ evs, processPageImgs w lu j k ts = Except.ok evs := by
  intro ts
  induction ts with
  | nil => intro k; simp [processPageImgs]
  | cons t ts ih =>
    intro k
    obtain ⟨e1, h1⟩ := processPageImg_isOk lu j k t hop
    obtain ⟨e2, h2⟩ := ih (k + 1)
    refine ⟨e1 ++ e2, ?_⟩
    rw [processPageImgs, h1, h2]
    rfl

theorem processLinks_isOk {w : World} (cfg : Config) (bn : String)
    (hop : ∀ f, w.openFail f = false)
    (hbody : ∀ u r, w.fetch u = some r →
      classifyDirect r.contentType u = false → r.streamFail = none) :
    ∀ hrefs c, ∃ evs, processLinks w cfg bn c hrefs = Except.ok evs := by
  intro hrefs
  induction hrefs with
  | nil => intro c; exact ⟨[], rfl⟩
  | cons href rest ih =>
    intro c
    rw [processLinks]
    split
    · obtain ⟨e1, h1⟩ := ih c
      rw [h1]
      exact ⟨_, rfl⟩
    · cases hf : w.fetch (urljoin cfg.url href) with
      | none =>
        simp only [hf]
        obtain ⟨e1, h1⟩ := ih c
        rw [h1]
        exact ⟨_, rfl⟩
      | some r =>
        simp only [hf]
        split
        · obtain ⟨wevs, hw⟩ := @writeResp_isOk w
            (directNameStr (c + 1) (safeFilename (urljoin cfg.url href))) r (urljoin cfg.url href)
            (hop (directNameStr (c + 1) (safeFilename (urljoin cfg.url href))))
          simp only [hw]
          split
          · exact ⟨_, rfl⟩
          · obtain ⟨e1, h1⟩ := ih (c + 1)
            rw [h1]
            exact ⟨_, rfl⟩
        · split
          · exact ⟨_, rfl⟩
          · rename_i hclass hbud
            rw [hbody (urljoin cfg.url href) r hf (by simpa using hclass)]
            obtain ⟨pevs, hp⟩ := processPageImgs_isOk (urljoin cfg.url href) (c + 1) hop
              r.page.imgs 1
            obtain ⟨e1, h1⟩ := ih (c + 1)
            rw [hp, h1]
            exact ⟨_, rfl⟩

theorem run_isOk {w : World} (cfg : Config)
    (hop : ∀ f, w.openFail f = false)
    (hbody : ∀ u r, w.fetch u = some r →
      classifyDirect r.contentType u = false → r.streamFail = none) :
    ∃ res, run w cfg = Except.ok res := by
  cases hroot : w.fetch cfg.url with
  | none =>
    exact ⟨{ retSome := false, events := [Ev.rootFetchError cfg.url] },
      by simp [run, hroot]⟩
  | some resp =>
    obtain ⟨e1, h1⟩ := processRootImgs_isOk cfg.url hop resp.page.imgs 1
    obtain ⟨e2, h2⟩ := processLinks_isOk cfg (netlocOf cfg.url) hop hbody resp.page.anchors 0
    exact ⟨{ retSome := true, events := e1 ++ e2 },
      by simp [run, hroot, h1, h2]⟩

/-! Link-budget accounting: the loop dispatches at most `K + 1` links when
`max_links = K`, because the check `link_count > max_links` runs only
after the link has been fetched, classified and counted. -/

theorem countDispatch_append (a b : List Ev) :
    countDispatch (a ++ b) = countDispatch a + countDispatch b := by
  simp [countDispatch, List.countP_append]

theorem countDispatch_cons_dispatch (u : String) (bb : Bool) (l : List Ev) :
    countDispatch (Ev.linkDispatched u bb :: l) = countDispatch l + 1 := by
  simp [countDispatch, List.countP_cons]

theorem countDispatch_cons_scanned (u : String) (l : List Ev) :
    countDispatch (Ev.pageScanned u :: l) = countDispatch l := by
  simp [countDispatch, List.countP_cons]

theorem countDispatch_zero_save {evs : List Ev}
    (h : ∀ e ∈ evs, saveKindEv e = true) : countDispatch evs = 0 := by
  unfold countDispatch
  rw [List.countP_eq_zero]
  intro e he
  have := h e he
  cases e <;> simp_all [saveKindEv]

theorem countDispatch_zero_root {evs : List Ev}
    (h : ∀ e ∈ evs, rootPhaseEv e = true) : countDispatch evs = 0 := by
  unfold countDispatch
  rw [List.countP_eq_zero]
  intro e he
  have := h e he
  cases e <;> simp_all [rootPhaseEv, saveKindEv]

theorem countDispatch_zero_page {evs : List Ev}
    (h : ∀ e ∈ evs, pagePhaseEv e = true) : countDispatch evs = 0 := by
  unfold countDispatch
  rw [List.countP_eq_zero]
  intro e he
  have := h e he
  cases e <;> simp_all [pagePhaseEv, saveKindEv]

theorem budgetHit_false_le {K c : Nat} (hK : K ≠ 0)
    (hb : budgetHit (some K) c = false) : c ≤ K := by
  simp [budgetHit, hK] at hb
  omega

theorem countDispatch_nil : countDispatch [] = 0 := rfl

theorem countDispatch_cons_skip (u : String) (l : List Ev) :
    countDispatch (Ev.linkOriginSkipped u :: l) = countDispatch l := by
  simp [countDispatch, List.countP_cons]

theorem countDispatch_cons_linkErr (u : String) (l : List Ev) :
    countDispatch (Ev.linkFetchError u :: l) = countDispatch l := by
  simp [countDispatch, List.countP_cons]

theorem processLinks_dispatch_bound {w : World} {cfg : Config} {bn : String} {K : Nat}
    (hm : cfg.maxLinks = some K) (hK : K ≠ 0) :
    ∀ hrefs c, c ≤ K →
    countDispatch (exEvents (processLinks w cfg bn c hrefs)) ≤ K + 1 - c := by
  intro hrefs
  induction hrefs with
  | nil =>
    intro c hc
    simp [processLinks, exEvents, countDispatch]
  | cons href rest ih =>
    intro c hc
    rw [processLinks]
    split
    · rw [exEvents_exSeq, List.singleton_append, countDispatch_cons_skip]
      exact ih c hc
    · cases hf : w.fetch (urljoin cfg.url href) with
      | none =>
        simp only [hf]
        rw [exEvents_exSeq, List.singleton_append, countDispatch_cons_linkErr]
        exact ih c hc
      | some r =>
        simp only [hf]
        split
        · cases hw : writeResp w r (urljoin cfg.url href)
              (directNameStr (c + 1) (safeFilename (urljoin cfg.url href))) with
          | error ew =>
            simp only [hw]
            rw [exEvents_error, writeResp_error hw, countDispatch_nil]
            omega
          | ok wevs =>
            have hz : countDispatch wevs = 0 :=
              countDispatch_zero_save (fun e he => writeResp_kinds e (by rw [hw]; exact he))
            simp only [hw]
            split
            · rw [exEvents_ok, countDispatch_cons_dispatch, hz]
              omega
            · rename_i hb
              rw [hm] at hb
              have hc1 : c + 1 ≤ K := budgetHit_false_le hK (by simpa using hb)
              rw [exEvents_exSeq, countDispatch_append, countDispatch_cons_dispatch, hz]
              have hr := ih (c + 1) hc1
              omega
        · split
          · rw [exEvents_ok, countDispatch_cons_dispatch, countDispatch_nil]
            omega
          · rename_i hb
            rw [hm] at hb
            have hc1 : c + 1 ≤ K := budgetHit_false_le hK (by simpa using hb)
            split
            · rw [exEvents_error, countDispatch_nil]
              omega
            · rw [exEvents_exSeq, countDispatch_append, countDispatch_cons_dispatch,
                countDispatch_cons_scanned, countDispatch_nil]
              cases hp : processPageImgs w (urljoin cfg.url href) (c + 1) 1 r.page.imgs with
              | error ep =>
                rw [exAndThen_er, exEvents_error]
                have hz : countDispatch ep = 0 :=
                  countDispatch_zero_page (fun e he =>
                    processPageImgs_kinds r.page.imgs 1 e (by rw [hp]; exact he))
                omega
              | ok pevs =>
                rw [exAndThen_okl, exEvents_exSeq, countDispatch_append]
                have hz : countDispatch pevs = 0 :=
                  countDispatch_zero_page (fun e he =>
                    processPageImgs_kinds r.page.imgs 1 e (by rw [hp]; exact he))
                have hr := ih (c + 1) hc1
                omega

theorem run_dispatch_bound {w : World} {cfg : Config} {K : Nat}
    (hm : cfg.maxLinks = some K) (hK : K ≠ 0) :
    countDispatch (runEvents w cfg) ≤ K + 1 := by
  cases hroot : w.fetch cfg.url with
  | none =>
    rw [runEvents_none hroot]
    simp [countDispatch, List.countP_cons]
  | some resp =>
    cases h1 : processRootImgs w cfg.url 1 resp.page.imgs with
    | error e1 =>
      rw [runEvents_rootCrash hroot h1]
      have hz : countDispatch e1 = 0 := countDispatch_zero_root (fun e he =>
        processRootImgs_kinds resp.page.imgs 1 e (by rw [h1]; exact he))
      omega
    | ok e1 =>
      rw [runEvents_phases hroot h1, countDispatch_append]
      have hz : countDispatch e1 = 0 := countDispatch_zero_root (fun e he =>
        processRootImgs_kinds resp.page.imgs 1 e (by rw [h1]; exact he))
      have hb := @processLinks_dispatch_bound w cfg (netlocOf cfg.url) K hm hK
        resp.page.anchors 0 (by omega)
      omega

/-! Root-image accounting: one attempted download per image element with a
usable source, none for elements without one. -/

theorem countRootAttempts_append (a b : List Ev) :
    countRootAttempts (a ++ b) = countRootAttempts a + countRootAttempts b := by
  simp [countRootAttempts, List.countP_append]

theorem countRootAttempts_zero_save {evs : List Ev}
    (h : ∀ e ∈ evs, saveKindEv e = true) : countRootAttempts evs = 0 := by
  unfold countRootAttempts
  rw [List.countP_eq_zero]
  intro e he
  have := h e he
  cases e <;> simp_all [saveKindEv]

theorem countRootAttempts_zero_link {evs : List Ev}
    (h : ∀ e ∈ evs, linkPhaseEv e = true) : countRootAttempts evs = 0 := by
  unfold countRootAttempts
  rw [List.countP_eq_zero]
  intro e he
  have := h e he
  cases e <;> simp_all [linkPhaseEv, pagePhaseEv, saveKindEv]

theorem countRootAttempts_singleton (u : String) :
    countRootAttempts [Ev.rootImgAttempt u] = 1 := rfl

theorem processRootImg_attempts {w u i t evs}
    (h : processRootImg w u i t = Except.ok evs) :
    countRootAttempts evs = (if (usableSrc t).isSome then 1 else 0) := by
  unfold processRootImg at h
  cases hus : usableSrc t with
  | none =>
    simp only [hus] at h
    simp at h
    subst h
    simp [hus, countRootAttempts]
  | some s =>
    simp only [hus] at h
    obtain ⟨fevs, hf, hevs⟩ := exSeq_ok_inv h
    subst hevs
    have hz : countRootAttempts fevs = 0 :=
      countRootAttempts_zero_save (fun e he => fetchAndSave_kinds e (by rw [hf]; exact he))
    rw [countRootAttempts_append, countRootAttempts_singleton, hz]
    simp [hus]

theorem processRootImgs_attempts {w u} :
    ∀ ts i evs, processRootImgs w u i ts = Except.ok evs →
    countRootAttempts evs = countUsable ts := by
  intro ts
  induction ts with
  | nil =>
    intro i evs h
    simp [processRootImgs] at h
    subst h
    simp [countRootAttempts, countUsable]
  | cons t ts ih =>
    intro i evs h
    rw [processRootImgs] at h
    obtain ⟨e1, e2, h1, h2, hevs⟩ := exAndThen_ok_inv h
    subst hevs
    rw [countRootAttempts_append, processRootImg_attempts h1, ih (i + 1) e2 h2]
    simp only [countUsable, List.countP_cons]
    by_cases hu : (usableSrc t).isSome = true <;> simp [hu] <;> omega

theorem run_attempts {w cfg resp}
    (hop : ∀ f, w.openFail f = false)
    (hroot : w.fetch cfg.url = some resp) :
    countRootAttempts (runEvents w cfg) = countUsable resp.page.imgs := by
  obtain ⟨e1, h1⟩ := processRootImgs_isOk cfg.url hop resp.page.imgs 1
  rw [runEvents_phases hroot h1, countRootAttempts_append,
    processRootImgs_attempts resp.page.imgs 1 e1 h1,
    countRootAttempts_zero_link
      (@processLinks_kinds w cfg (netlocOf cfg.url) resp.page.anchors 0)]
  omega

/-! Saved-file membership: a usable root image whose fetch succeeds and
whose file opens is written, with the bytes the stream delivered. -/

theorem writeResp_mem_fileWritten {w : World} {r : Response} {u fn : String} {evs}
    (h : writeResp w r u fn = Except.ok evs) :
    Ev.fileWritten fn (respContent r) ∈ evs := by
  unfold writeResp at h
  split at h
  · exact absurd h (by simp)
  · split at h <;> (simp at h; subst h; simp)

theorem processRootImg_mem {w u i t evs s r}
    (h : processRootImg w u i t = Except.ok evs)
    (hus : usableSrc t = some s)
    (hf : w.fetch (urljoin u s) = some r) :
    Ev.fileWritten (rootNameStr i (safeFilename (urljoin u s))) (respContent r) ∈ evs := by
  unfold processRootImg at h
  simp only [hus] at h
  obtain ⟨fevs, hfs, hevs⟩ := exSeq_ok_inv h
  subst hevs
  unfold fetchAndSave at hfs
  rw [hf] at hfs
  exact List.mem_append.mpr (Or.inr (writeResp_mem_fileWritten hfs))

theorem processRootImgs_mem {w u} :
    ∀ ts i0 idx evs t s r, processRootImgs w u i0 ts = Except.ok evs →
    ts[idx]? = some t → usableSrc t = some s → w.fetch (urljoin u s) = some r →
    Ev.fileWritten (rootNameStr (i0 + idx) (safeFilename (urljoin u s))) (respContent r) ∈ evs := by
  intro ts
  induction ts with
  | nil => intro i0 idx evs t s r h hget; simp at hget
  | cons t0 ts ih =>
    intro i0 idx evs t s r h hget hus hf
    rw [processRootImgs] at h
    obtain ⟨e1, e2, h1, h2, hevs⟩ := exAndThen_ok_inv h
    subst hevs
    cases idx with
    | zero =>
      simp at hget
      subst hget
      exact List.mem_append.mpr (Or.inl (processRootImg_mem h1 hus hf))
    | succ idx =>
      simp at hget
      have := ih (i0 + 1) idx e2 t s r h2 hget hus hf
      have heq : i0 + 1 + idx = i0 + (idx + 1) := by omega
      rw [heq] at this
      exact List.mem_append.mpr (Or.inr this)

theorem run_root_mem {w cfg resp idx t s r}
    (hop : ∀ f, w.openFail f = false)
    (hroot : w.fetch cfg.url = some resp)
    (hget : resp.page.imgs[idx]? = some t)
    (hus : usableSrc t = some s)
    (hf : w.fetch (urljoin cfg.url s) = some r) :
    Ev.fileWritten (rootNameStr (idx + 1) (safeFilename (urljoin cfg.url s)))
      (respContent r) ∈ runEvents w cfg := by
  obtain ⟨e1, h1⟩ := processRootImgs_isOk cfg.url hop resp.page.imgs 1
  rw [runEvents_phases hroot h1]
  have := processRootImgs_mem resp.page.imgs 1 idx e1 t s r h1 hget hus hf
  have heq : 1 + idx = idx + 1 := by omega
  rw [heq] at this
  exact List.mem_append.mpr (Or.inl this)

/-! Classification facts about the link loop: the dispatch flag records the
classifier's verdict, pages are scanned only when classified as HTML, and
with no budget every HTML-classified link is scanned. -/

theorem saveKindEv_not_dispatched {e : Ev} (h : saveKindEv e = true) :
    ∀ u b, e ≠ Ev.linkDispatched u b := by
  intro u b he
  subst he
  simp [saveKindEv] at h

theorem saveKindEv_not_scanned {e : Ev} (h : saveKindEv e = true) :
    ∀ u, e ≠ Ev.pageScanned u := by
  intro u he
  subst he
  simp [saveKindEv] at h

theorem pagePhaseEv_not_dispatched {e : Ev} (h : pagePhaseEv e = true) :
    ∀ u b, e ≠ Ev.linkDispatched u b := by
  intro u b he
  subst he
  simp [pagePhaseEv, saveKindEv] at h

theorem pagePhaseEv_not_scanned {e : Ev} (h : pagePhaseEv e = true) :
    ∀ u, e ≠ Ev.pageScanned u := by
  intro u he
  subst he
  simp [pagePhaseEv, saveKindEv] at h

theorem rootPhaseEv_not_dispatched {e : Ev} (h : rootPhaseEv e = true) :
    ∀ u b, e ≠ Ev.linkDispatched u b := by
  intro u b he
  subst he
  simp [rootPhaseEv, saveKindEv] at h

theorem rootPhaseEv_not_scanned {e : Ev} (h : rootPhaseEv e = true) :
    ∀ u, e ≠ Ev.pageScanned u := by
  intro u he
  subst he
  simp [rootPhaseEv, saveKindEv] at h

theorem processLinks_dispatched_inv {w cfg bn} :
    ∀ hrefs c u b, Ev.linkDispatched u b ∈ exEvents (processLinks w cfg bn c hrefs) →
    ∃ r, w.fetch u = some r ∧ classifyDirect r.contentType u = b := by
  intro hrefs
  induction hrefs with
  | nil => intro c u b hmem; simp [processLinks, exEvents] at hmem
  | cons href rest ih =>
    intro c u b hmem
    rw [processLinks] at hmem
    split at hmem
    · rw [exEvents_exSeq] at hmem
      rcases List.mem_append.mp hmem with hm | hm
      · simp at hm
      · exact ih c u b hm
    · split at hmem
      · rw [exEvents_exSeq] at hmem
        rcases List.mem_append.mp hmem with hm | hm
        · simp at hm
        · exact ih c u b hm
      · rename_i r hfetch
        split at hmem
        · rename_i hclass
          cases hw : writeResp w r (urljoin cfg.url href)
              (directNameStr (c + 1) (safeFilename (urljoin cfg.url href))) with
          | error ew =>
            rw [hw, exEvents_error, writeResp_error hw] at hmem
            simp at hmem
          | ok wevs =>
            simp only [hw] at hmem
            split at hmem
            · rw [exEvents_ok] at hmem
              rcases List.mem_cons.mp hmem with hm | hm
              · simp at hm
                obtain ⟨hu, hb⟩ := hm
                subst hu
                exact ⟨r, hfetch, by simp [hclass, hb]⟩
              · exact absurd rfl (saveKindEv_not_dispatched
                  (writeResp_kinds _ (by rw [hw]; exact hm)) u b)
            · rw [exEvents_exSeq] at hmem
              rcases List.mem_append.mp hmem with hm | hm
              · rcases List.mem_cons.mp hm with hm | hm
                · simp at hm
                  obtain ⟨hu, hb⟩ := hm
                  subst hu
                  exact ⟨r, hfetch, by simp [hclass, hb]⟩
                · exact absurd rfl (saveKindEv_not_dispatched
                    (writeResp_kinds _ (by rw [hw]; exact hm)) u b)
              · exact ih (c + 1) u b hm
        · rename_i hclass
          split at hmem
          · rw [exEvents_ok] at hmem
            simp at hmem
            obtain ⟨hu, hb⟩ := hmem
            subst hu
            exact ⟨r, hfetch, by simp [hclass, hb]⟩
          · split at hmem
            · rw [exEvents_error] at hmem
              simp at hmem
            · rw [exEvents_exSeq] at hmem
              rcases List.mem_append.mp hmem with hm | hm
              · simp at hm
                obtain ⟨hu, hb⟩ := hm
                subst hu
                exact ⟨r, hfetch, by simp [hclass, hb]⟩
              · rcases mem_exEvents_exAndThen hm with hm | hm
                · exact absurd rfl (pagePhaseEv_not_dispatched
                    (processPageImgs_kinds r.page.imgs 1 _ hm) u b)
                · exact ih (c + 1) u b hm

theorem processLinks_scanned_inv {w cfg bn} :
    ∀ hrefs c u, Ev.pageScanned u ∈ exEvents (processLinks w cfg bn c hrefs) →
    ∃ r, w.fetch u = some r ∧ classifyDirect r.contentType u = false := by
  intro hrefs
  induction hrefs with
  | nil => intro c u hmem; simp [processLinks, exEvents] at hmem
  | cons href rest ih =>
    intro c u hmem
    rw [processLinks] at hmem
    split at hmem
    · rw [exEvents_exSeq] at hmem
      rcases List.mem_append.mp hmem with hm | hm
      · simp at hm
      · exact ih c u hm
    · split at hmem
      · rw [exEvents_exSeq] at hmem
        rcases List.mem_append.mp hmem with hm | hm
        · simp at hm
        · exact ih c u hm
      · rename_i r hfetch
        split at hmem
        · rename_i hclass
          cases hw : writeResp w r (urljoin cfg.url href)
              (directNameStr (c + 1) (safeFilename (urljoin cfg.url href))) with
          | error ew =>
            rw [hw, exEvents_error, writeResp_error hw] at hmem
            simp at hmem
          | ok wevs =>
            simp only [hw] at hmem
            split at hmem
            · rw [exEvents_ok] at hmem
              rcases List.mem_cons.mp hmem with hm | hm
              · simp at hm
              · exact absurd rfl (saveKindEv_not_scanned
                  (writeResp_kinds _ (by rw [hw]; exact hm)) u)
            · rw [exEvents_exSeq] at hmem
              rcases List.mem_append.mp hmem with hm | hm
              · rcases List.mem_cons.mp hm with hm | hm
                · simp at hm
                · exact absurd rfl (saveKindEv_not_scanned
                    (writeResp_kinds _ (by rw [hw]; exact hm)) u)
              · exact ih (c + 1) u hm
        · rename_i hclass
          split at hmem
          · rw [exEvents_ok] at hmem
            simp at hmem
          · split at hmem
            · rw [exEvents_error] at hmem
              simp at hmem
            · rw [exEvents_exSeq] at hmem
              rcases List.mem_append.mp hmem with hm | hm
              · simp at hm
                subst hm
                exact ⟨r, hfetch, by simpa using hclass⟩
              · rcases mem_exEvents_exAndThen hm with hm | hm
                · exact absurd rfl (pagePhaseEv_not_scanned
                    (processPageImgs_kinds r.page.imgs 1 _ hm) u)
                · exact ih (c + 1) u hm

theorem hasDirectSaveFor_of_mem {evs : List Ev} {n c : String} {base : String}
    (hmem : Ev.fileWritten n c ∈ evs) (hname : isDirectSaveName base n = true) :
    hasDirectSaveFor evs base = true := by
  unfold hasDirectSaveFor
  rw [List.any_eq_true]
  exact ⟨Ev.fileWritten n c, hmem, hname⟩

theorem hasDirectSaveFor_mono {evs evs2 : List Ev} {base : String}
    (hsub : ∀ e ∈ evs, e ∈ evs2)
    (h : hasDirectSaveFor evs base = true) : hasDirectSaveFor evs2 base = true := by
  unfold hasDirectSaveFor at h ⊢
  rw [List.any_eq_true] at h ⊢
  obtain ⟨e, hmem, hpred⟩ := h
  exact ⟨e, hsub e hmem, hpred⟩

theorem processLinks_none_scans {w cfg bn} (hm : cfg.maxLinks = none) :
    ∀ hrefs c u, Ev.linkDispatched u false ∈ exEvents (processLinks w cfg bn c hrefs) →
    Ev.pageScanned u ∈ exEvents (processLinks w cfg bn c hrefs) := by
  intro hrefs
  induction hrefs with
  | nil => intro c u hmem; simp [processLinks, exEvents] at hmem
  | cons href rest ih =>
    intro c u hmem
    rw [processLinks] at hmem ⊢
    have hbud : budgetHit cfg.maxLinks (c + 1) = false := by rw [hm]; rfl
    by_cases hsd : (cfg.sameDomain && !(netlocOf (urljoin cfg.url href) == bn)) = true
    · rw [if_pos hsd] at hmem ⊢
      rw [exEvents_exSeq] at hmem ⊢
      rcases List.mem_append.mp hmem with hmm | hmm
      · simp at hmm
      · exact List.mem_append.mpr (Or.inr (ih c u hmm))
    · rw [if_neg hsd] at hmem ⊢
      cases hf : w.fetch (urljoin cfg.url href) with
      | none =>
        simp only [hf] at hmem ⊢
        rw [exEvents_exSeq] at hmem ⊢
        rcases List.mem_append.mp hmem with hmm | hmm
        · simp at hmm
        · exact List.mem_append.mpr (Or.inr (ih c u hmm))
      | some r =>
        simp only [hf] at hmem ⊢
        by_cases hclass : classifyDirect r.contentType (urljoin cfg.url href) = true
        · rw [if_pos hclass] at hmem ⊢
          cases hw : writeResp w r (urljoin cfg.url href)
              (directNameStr (c + 1) (safeFilename (urljoin cfg.url href))) with
          | error ew =>
            simp only [hw] at hmem
            rw [exEvents_error, writeResp_error hw] at hmem
            simp at hmem
          | ok wevs =>
            simp only [hw] at hmem ⊢
            rw [if_neg (by simp [hbud])] at hmem ⊢
            rw [exEvents_exSeq] at hmem ⊢
            rcases List.mem_append.mp hmem with hmm | hmm
            · rcases List.mem_cons.mp hmm with hmm | hmm
              · simp at hmm
              · exact absurd rfl (saveKindEv_not_dispatched
                  (writeResp_kinds _ (by rw [hw]; exact hmm)) u false)
            · exact List.mem_append.mpr (Or.inr (ih (c + 1) u hmm))
        · rw [if_neg hclass] at hmem ⊢
          rw [if_neg (by simp [hbud])] at hmem ⊢
          cases hsf : r.streamFail with
          | some k =>
            simp only [hsf] at hmem
            rw [exEvents_error] at hmem
            simp at hmem
          | none =>
            simp only [hsf] at hmem ⊢
            rw [exEvents_exSeq] at hmem ⊢
            rcases List.mem_append.mp hmem with hmm | hmm
            · simp at hmm
              subst hmm
              simp
            · cases hp : processPageImgs w (urljoin cfg.url href) (c + 1) 1 r.page.imgs with
              | error ep =>
                rw [hp, exAndThen_er, exEvents_error] at hmm
                exact absurd rfl (pagePhaseEv_not_dispatched
                  (processPageImgs_kinds r.page.imgs 1 _
                    (by rw [hp, exEvents_error]; exact hmm)) u false)
              | ok pevs =>
                rw [hp, exAndThen_okl, exEvents_exSeq] at hmm
                rw [exAndThen_okl, exEvents_exSeq]
                rcases List.mem_append.mp hmm with hmm | hmm
                · exact absurd rfl (pagePhaseEv_not_dispatched
                    (processPageImgs_kinds r.page.imgs 1 _
                      (by rw [hp, exEvents_ok]; exact hmm)) u false)
                · exact List.mem_append.mpr (Or.inr
                    (List.mem_append.mpr (Or.inr (ih (c + 1) u hmm))))

theorem processLinks_direct_save {w cfg bn} :
    ∀ hrefs c u, Ev.linkDispatched u true ∈ exEvents (processLinks w cfg bn c hrefs) →
    hasDirectSaveFor (exEvents (processLinks w cfg bn c hrefs)) (safeFilename u) = true := by
  intro hrefs
  induction hrefs with
  | nil => intro c u hmem; simp [processLinks, exEvents] at hmem
  | cons href rest ih =>
    intro c u hmem
    rw [processLinks] at hmem ⊢
    by_cases hsd : (cfg.sameDomain && !(netlocOf (urljoin cfg.url href) == bn)) = true
    · rw [if_pos hsd] at hmem ⊢
      rw [exEvents_exSeq] at hmem ⊢
      rcases List.mem_append.mp hmem with hmm | hmm
      · simp at hmm
      · exact hasDirectSaveFor_mono (fun e he => List.mem_append.mpr (Or.inr he))
          (ih c u hmm)
    · rw [if_neg hsd] at hmem ⊢
      cases hf : w.fetch (urljoin cfg.url href) with
      | none =>
        simp only [hf] at hmem ⊢
        rw [exEvents_exSeq] at hmem ⊢
        rcases List.mem_append.mp hmem with hmm | hmm
        · simp at hmm
        · exact hasDirectSaveFor_mono (fun e he => List.mem_append.mpr (Or.inr he))
            (ih c u hmm)
      | some r =>
        simp only [hf] at hmem ⊢
        by_cases hclass : classifyDirect r.contentType (urljoin cfg.url href) = true
        · rw [if_pos hclass] at hmem ⊢
          cases hw : writeResp w r (urljoin cfg.url href)
              (directNameStr (c + 1) (safeFilename (urljoin cfg.url href))) with
          | error ew =>
            simp only [hw] at hmem
            rw [exEvents_error, writeResp_error hw] at hmem
            simp at hmem
          | ok wevs =>
            simp only [hw] at hmem ⊢
            by_cases hb : budgetHit cfg.maxLinks (c + 1) = true
            · rw [if_pos hb] at hmem ⊢
              rw [exEvents_ok] at hmem ⊢
              rcases List.mem_cons.mp hmem with hmm | hmm
              · simp at hmm
                subst hmm
                exact hasDirectSaveFor_of_mem
                  (List.mem_cons_of_mem _ (writeResp_mem_fileWritten hw))
                  (isDirectSaveName_self (c + 1) _)
              · exact absurd rfl (saveKindEv_not_dispatched
                  (writeResp_kinds _ (by rw [hw]; exact hmm)) u true)
            · rw [if_neg hb] at hmem ⊢
              rw [exEvents_exSeq] at hmem ⊢
              rcases List.mem_append.mp hmem with hmm | hmm
              · rcases List.mem_cons.mp hmm with hmm | hmm
                · simp at hmm
                  subst hmm
                  exact hasDirectSaveFor_of_mem
                    (List.mem_append.mpr (Or.inl
                      (List.mem_cons_of_mem _ (writeResp_mem_fileWritten hw))))
                    (isDirectSaveName_self (c + 1) _)
                · exact absurd rfl (saveKindEv_not_dispatched
                    (writeResp_kinds _ (by rw [hw]; exact hmm)) u true)
              · exact hasDirectSaveFor_mono
                  (fun e he => List.mem_append.mpr (Or.inr he))
                  (ih (c + 1) u hmm)
        · rw [if_neg hclass] at hmem ⊢
          by_cases hb : budgetHit cfg.maxLinks (c + 1) = true
          · rw [if_pos hb] at hmem
            rw [exEvents_ok] at hmem
            simp at hmem
          · rw [if_neg hb] at hmem ⊢
            cases hsf : r.streamFail with
            | some k =>
              simp only [hsf] at hmem
              rw [exEvents_error] at hmem
              simp at hmem
            | none =>
              simp only [hsf] at hmem ⊢
              rw [exEvents_exSeq] at hmem ⊢
              rcases List.mem_append.mp hmem with hmm | hmm
              · simp at hmm
              · cases hp : processPageImgs w (urljoin cfg.url href) (c + 1) 1 r.page.imgs with
                | error ep =>
                  rw [hp, exAndThen_er, exEvents_error] at hmm
                  exact absurd rfl (pagePhaseEv_not_dispatched
                    (processPageImgs_kinds r.page.imgs 1 _
                      (by rw [hp, exEvents_error]; exact hmm)) u true)
                | ok pevs =>
                  rw [hp, exAndThen_okl, exEvents_exSeq] at hmm
                  rw [exAndThen_okl, exEvents_exSeq]
                  rcases List.mem_append.mp hmm with hmm | hmm
                  · exact absurd rfl (pagePhaseEv_not_dispatched
                      (processPageImgs_kinds r.page.imgs 1 _
                        (by rw [hp, exEvents_ok]; exact hmm)) u true)
                  · exact hasDirectSaveFor_mono
                      (fun e he => List.mem_append.mpr (Or.inr
                        (List.mem_append.mpr (Or.inr he))))
                      (ih (c + 1) u hmm)

/-! Decomposition of a run (also a crashed one) into its phases. -/

theorem runEvents_cases (w : World) (cfg : Config) :
    (w.fetch cfg.url = none ∧ runEvents w cfg = [Ev.rootFetchError cfg.url]) ∨
    (∃ resp e1, w.fetch cfg.url = some resp ∧
      processRootImgs w cfg.url 1 resp.page.imgs = Except.error e1 ∧
      runEvents w cfg = e1) ∨
    (∃ resp e1, w.fetch cfg.url = some resp ∧
      processRootImgs w cfg.url 1 resp.page.imgs = Except.ok e1 ∧
      runEvents w cfg =
        e1 ++ exEvents (processLinks w cfg (netlocOf cfg.url) 0 resp.page.anchors)) := by
  cases hroot : w.fetch cfg.url with
  | none => exact Or.inl ⟨rfl, runEvents_none hroot⟩
  | some resp =>
    cases h1 : processRootImgs w cfg.url 1 resp.page.imgs with
    | error e1 => exact Or.inr (Or.inl ⟨resp, e1, rfl, h1, runEvents_rootCrash hroot h1⟩)
    | ok e1 => exact Or.inr (Or.inr ⟨resp, e1, rfl, h1, runEvents_phases hroot h1⟩)

theorem run_scanned_inv {w cfg u} (h : Ev.pageScanned u ∈ runEvents w cfg) :
    (w.fetch u).isSome = true ∧ classifiedDirectAt w u = false := by
  rcases runEvents_cases w cfg with ⟨hn, hc⟩ | ⟨resp, e1, hroot, h1, hc⟩ |
    ⟨resp, e1, hroot, h1, hc⟩
  · rw [hc] at h; simp at h
  · rw [hc] at h
    exact absurd rfl (rootPhaseEv_not_scanned
      (processRootImgs_kinds resp.page.imgs 1 _ (by rw [h1, exEvents_error]; exact h)) u)
  · rw [hc] at h
    rcases List.mem_append.mp h with hm | hm
    · exact absurd rfl (rootPhaseEv_not_scanned
        (processRootImgs_kinds resp.page.imgs 1 _ (by rw [h1, exEvents_ok]; exact hm)) u)
    · obtain ⟨r, hf, hcl⟩ := processLinks_scanned_inv resp.page.anchors 0 u hm
      refine ⟨by simp [hf], ?_⟩
      unfold classifiedDirectAt
      rw [hf]
      exact hcl

theorem run_none_scans {w cfg u} (hm : cfg.maxLinks = none)
    (h : Ev.linkDispatched u false ∈ runEvents w cfg) :
    Ev.pageScanned u ∈ runEvents w cfg := by
  rcases runEvents_cases w cfg with ⟨hn, hc⟩ | ⟨resp, e1, hroot, h1, hc⟩ |
    ⟨resp, e1, hroot, h1, hc⟩
  · rw [hc] at h; simp at h
  · rw [hc] at h
    exact absurd rfl (rootPhaseEv_not_dispatched
      (processRootImgs_kinds resp.page.imgs 1 _ (by rw [h1, exEvents_error]; exact h)) u false)
  · rw [hc] at h ⊢
    rcases List.mem_append.mp h with hmem | hmem
    · exact absurd rfl (rootPhaseEv_not_dispatched
        (processRootImgs_kinds resp.page.imgs 1 _ (by rw [h1, exEvents_ok]; exact hmem)) u false)
    · exact List.mem_append.mpr
        (Or.inr (processLinks_none_scans hm resp.page.anchors 0 u hmem))

theorem run_direct_save {w cfg u}
    (h : Ev.linkDispatched u true ∈ runEvents w cfg) :
    hasDirectSaveFor (runEvents w cfg) (safeFilename u) = true := by
  rcases runEvents_cases w cfg with ⟨hn, hc⟩ | ⟨resp, e1, hroot, h1, hc⟩ |
    ⟨resp, e1, hroot, h1, hc⟩
  · rw [hc] at h; simp at h
  · rw [hc] at h
    exact absurd rfl (rootPhaseEv_not_dispatched
      (processRootImgs_kinds resp.page.imgs 1 _ (by rw [h1, exEvents_error]; exact h)) u true)
  · rw [hc] at h ⊢
    rcases List.mem_append.mp h with hmem | hmem
    · exact absurd rfl (rootPhaseEv_not_dispatched
        (processRootImgs_kinds resp.page.imgs 1 _ (by rw [h1, exEvents_ok]; exact hmem)) u true)
    · exact hasDirectSaveFor_mono (fun e he => List.mem_append.mpr (Or.inr he))
        (processLinks_direct_save resp.page.anchors 0 u hmem)

theorem run_dispatchFetched (w : World) (cfg : Config) :
    dispatchFetched w (runEvents w cfg) = true := by
  unfold dispatchFetched
  rw [List.all_eq_true]
  intro e he
  rcases runEvents_cases w cfg with ⟨hn, hc⟩ | ⟨resp, e1, hroot, h1, hc⟩ |
    ⟨resp, e1, hroot, h1, hc⟩
  · rw [hc] at he
    simp at he
    subst he
    simp
  · rw [hc] at he
    cases e with
    | linkDispatched u b =>
      exact absurd rfl (rootPhaseEv_not_dispatched
        (processRootImgs_kinds resp.page.imgs 1 _ (by rw [h1, exEvents_error]; exact he)) u b)
    | rootImgAttempt u => simp
    | pageImgAttempt u => simp
    | imgFetchError u => simp
    | fileWritten n c => simp
    | savedLog n => simp
    | rootFetchError u => simp
    | linkOriginSkipped u => simp
    | linkFetchError u => simp
    | pageScanned u => simp
  · rw [hc] at he
    cases e with
    | linkDispatched u b =>
      rcases List.mem_append.mp he with hmm | hmm
      · exact absurd rfl (rootPhaseEv_not_dispatched
          (processRootImgs_kinds resp.page.imgs 1 _ (by rw [h1, exEvents_ok]; exact hmm)) u b)
      · obtain ⟨r, hf, _⟩ := processLinks_dispatched_inv resp.page.anchors 0 u b hmm
        simp [hf]
    | rootImgAttempt u => simp
    | pageImgAttempt u => simp
    | imgFetchError u => simp
    | fileWritten n c => simp
    | savedLog n => simp
    | rootFetchError u => simp
    | linkOriginSkipped u => simp
    | linkFetchError u => simp
    | pageScanned u => simp

/-! Budget `0` is Python-falsy: the guard never fires, exactly as with
`max_links=None`. -/

theorem budgetHit_zero (c : Nat) : budgetHit (some 0) c = budgetHit none c := by
  simp [budgetHit]

theorem processLinks_budget_zero (w : World) (u bn : String) (sd : Bool) :
    ∀ hrefs c, processLinks w { url := u, sameDomain := sd, maxLinks := some 0 } bn c hrefs =
      processLinks w { url := u, sameDomain := sd, maxLinks := none } bn c hrefs := by
  intro hrefs
  induction hrefs with
  | nil => simp [processLinks]
  | cons href rest ih =>
    intro c
    rw [processLinks, processLinks]
    simp only [budgetHit_zero, ih]

theorem run_budget_zero (w : World) (u : String) (sd : Bool) :
    run w { url := u, sameDomain := sd, maxLinks := some 0 } =
      run w { url := u, sameDomain := sd, maxLinks := none } := by
  unfold run
  simp only [processLinks_budget_zero]

/-! The classifier agrees with the specification's wording (extension
without the leading dot, compared case-insensitively). -/

theorem string_eq_iff_data {s t : String} : s = t ↔ s.data = t.data :=
  ⟨congrArg _, string_data_inj⟩

theorem suffixOfName_shape (name : List Char) :
    suffixOfName name = [] ∨ ∃ r, suffixOfName name = '.' :: r := by
  simp only [suffixOfName]
  split
  · split
    · simp
    · right
      exact ⟨_, rfl⟩
  · simp

theorem classifyDirect_eq_spec (ct url : String) :
    classifyDirect ct url = specClassifyDirect ct url := by
  unfold classifyDirect specClassifyDirect
  rcases suffixOfName_shape (pathName (pathOfUrl url)) with hs | ⟨r, hs⟩
  · rw [hs]
    have d1 : (".jpg" : String).data = '.' :: 'j' :: 'p' :: 'g' :: [] := rfl
    have d2 : (".jpeg" : String).data = '.' :: 'j' :: 'p' :: 'e' :: 'g' :: [] := rfl
    have d3 : (".png" : String).data = '.' :: 'p' :: 'n' :: 'g' :: [] := rfl
    have d4 : (".gif" : String).data = '.' :: 'g' :: 'i' :: 'f' :: [] := rfl
    have e1 : ("jpg" : String).data = 'j' :: 'p' :: 'g' :: [] := rfl
    have e2 : ("jpeg" : String).data = 'j' :: 'p' :: 'e' :: 'g' :: [] := rfl
    have e3 : ("png" : String).data = 'p' :: 'n' :: 'g' :: [] := rfl
    have e4 : ("gif" : String).data = 'g' :: 'i' :: 'f' :: [] := rfl
    rw [Bool.eq_iff_iff]
    simp [stripDot, imageExts, specImageExts, List.contains, List.elem_iff,
      string_eq_iff_data, d1, d2, d3, d4, e1, e2, e3, e4]
  · rw [hs]
    have d1 : (".jpg" : String).data = '.' :: 'j' :: 'p' :: 'g' :: [] := rfl
    have d2 : (".jpeg" : String).data = '.' :: 'j' :: 'p' :: 'e' :: 'g' :: [] := rfl
    have d3 : (".png" : String).data = '.' :: 'p' :: 'n' :: 'g' :: [] := rfl
    have d4 : (".gif" : String).data = '.' :: 'g' :: 'i' :: 'f' :: [] := rfl
    have e1 : ("jpg" : String).data = 'j' :: 'p' :: 'g' :: [] := rfl
    have e2 : ("jpeg" : String).data = 'j' :: 'p' :: 'e' :: 'g' :: [] := rfl
    have e3 : ("png" : String).data = 'p' :: 'n' :: 'g' :: [] := rfl
    have e4 : ("gif" : String).data = 'g' :: 'i' :: 'f' :: [] := rfl
    rw [Bool.eq_iff_iff]
    simp [stripDot, imageExts, specImageExts, List.contains, List.elem_iff,
      string_eq_iff_data, d1, d2, d3, d4, e1, e2, e3, e4]

/-! Dated directory names: injective on the strftime fields, constant on
the sub-second part. -/

theorem dig_inj {a b : Nat} (ha : a < 10) (hb : b < 10)
    (h : digitChar10 a = digitChar10 b) : a = b := by
  revert h
  interval_cases a <;> interval_cases b <;> decide

theorem pad2_inj {a b : Nat} (ha : a < 100) (hb : b < 100)
    (h : pad2 a = pad2 b) : a = b := by
  simp [pad2] at h
  obtain ⟨h1, h2⟩ := h
  have e1 := dig_inj (by omega) (by omega) h1
  have e2 := dig_inj (by omega) (by omega) h2
  omega

theorem pad4_inj {a b : Nat} (ha : a < 10000) (hb : b < 10000)
    (h : pad4 a = pad4 b) : a = b := by
  simp [pad4] at h
  obtain ⟨h1, h2, h3, h4⟩ := h
  have e1 := dig_inj (by omega) (by omega) h1
  have e2 := dig_inj (by omega) (by omega) h2
  have e3 := dig_inj (by omega) (by omega) h3
  have e4 := dig_inj (by omega) (by omega) h4
  omega

theorem pad2_length (n : Nat) : (pad2 n).length = 2 := rfl

theorem pad4_length (n : Nat) : (pad4 n).length = 4 := rfl

theorem datedName_inj {t1 t2 : Timestamp}
    (h1 : t1.year < 10000) (h2 : t1.month < 100) (h3 : t1.day < 100)
    (h4 : t1.hour < 100) (h5 : t1.minute < 100) (h6 : t1.second < 100)
    (g1 : t2.year < 10000) (g2 : t2.month < 100) (g3 : t2.day < 100)
    (g4 : t2.hour < 100) (g5 : t2.minute < 100) (g6 : t2.second < 100)
    (h : datedName t1 = datedName t2) :
    t1.year = t2.year ∧ t1.month = t2.month ∧ t1.day = t2.day ∧
      t1.hour = t2.hour ∧ t1.minute = t2.minute ∧ t1.second = t2.second := by
  have hd := string_mk_inj h
  simp at hd
  obtain ⟨hy, hrest⟩ := List.append_inj hd (by rw [pad4_length, pad4_length])
  obtain ⟨hmo, hrest2⟩ := List.append_inj hrest (by rw [pad2_length, pad2_length])
  obtain ⟨hday, hrest3⟩ := List.append_inj hrest2 (by rw [pad2_length, pad2_length])
  simp at hrest3
  obtain ⟨hh, hrest4⟩ := List.append_inj hrest3 (by rw [pad2_length, pad2_length])
  obtain ⟨hmi, hsec⟩ := List.append_inj hrest4 (by rw [pad2_length, pad2_length])
  exact ⟨pad4_inj h1 g1 hy, pad2_inj h2 g2 hmo, pad2_inj h3 g3 hday,
    pad2_inj h4 g4 hh, pad2_inj h5 g5 hmi, pad2_inj h6 g6 hsec⟩

/-! Filename deriver: non-emptiness, sanitisation, and independence of the
query string for URLs with a usable final path segment. -/

theorem data_append (a b : String) : (a ++ b).data = a.data ++ b.data := rfl

theorem splitSS_length {l : List Char} {p : List Char × List Char}
    (h : splitSS l = some p) : 3 ≤ l.length := by
  induction l generalizing p with
  | nil => simp [splitSS] at h
  | cons c cs ih =>
    rw [splitSS] at h
    split at h
    · rename_i hc
      have : 2 ≤ cs.length := by
        have := congrArg List.length hc.2
        simp [List.length_take] at this
        omega
      simp
      omega
    · cases hss : splitSS cs with
      | none => rw [hss] at h; simp at h
      | some p2 =>
        have := ih hss
        simp
        omega

theorem take_two_append {cs l2 : List Char} {x y : Char}
    (h : cs.take 2 = [x, y]) : (cs ++ l2).take 2 = [x, y] := by
  cases cs with
  | nil => simp at h
  | cons a t =>
    cases t with
    | nil => simp at h
    | cons b t2 => simp_all [List.take]

theorem take_two_stable {cs l2 : List Char} (h : 2 ≤ cs.length) :
    (cs ++ l2).take 2 = cs.take 2 := by
  cases cs with
  | nil => simp at h
  | cons a t =>
    cases t with
    | nil => simp at h
    | cons b t2 => simp [List.take]

theorem drop_two_append {cs l2 : List Char} (h : 2 ≤ cs.length) :
    (cs ++ l2).drop 2 = cs.drop 2 ++ l2 := by
  cases cs with
  | nil => simp at h
  | cons a t =>
    cases t with
    | nil => simp at h
    | cons b t2 => simp [List.drop]

theorem splitSS_append {l l2 : List Char} {p : List Char × List Char}
    (h : splitSS l = some p) : splitSS (l ++ l2) = some (p.1, p.2 ++ l2) := by
  induction l generalizing p with
  | nil => simp [splitSS] at h
  | cons c cs ih =>
    rw [splitSS] at h
    rw [List.cons_append, splitSS]
    split at h
    · rename_i hc
      have hlen : 2 ≤ cs.length := by
        have := congrArg List.length hc.2
        simp [List.length_take] at this
        omega
      rw [if_pos ⟨hc.1, take_two_append hc.2⟩]
      simp at h
      subst h
      simp [drop_two_append hlen]
    · rename_i hc
      cases hss : splitSS cs with
      | none => rw [hss] at h; simp at h
      | some p2 =>
        rw [hss] at h
        simp at h
        have hlen : 2 ≤ cs.length := by
          have := splitSS_length hss
          omega
        rw [if_neg (by rw [take_two_stable hlen]; exact hc)]
        rw [ih hss]
        simp
        subst h
        simp

theorem splitSS_none_of_no_colon {l : List Char} (h : ':' ∉ l) : splitSS l = none := by
  induction l with
  | nil => simp [splitSS]
  | cons c cs ih =>
    rw [splitSS]
    simp at h
    rw [if_neg (fun hcon => h.1 hcon.1.symm)]
    rw [ih h.2]

theorem splitSS_none_append {l l2 : List Char}
    (h : splitSS l = none) (h2 : ':' ∉ l2) :
    splitSS (l ++ '?' :: l2) = none := by
  induction l with
  | nil =>
    simp only [List.nil_append]
    rw [splitSS]
    rw [if_neg (by simp)]
    rw [splitSS_none_of_no_colon h2]
  | cons c cs ih =>
    rw [splitSS] at h
    rw [List.cons_append, splitSS]
    split at h
    · simp at h
    · rename_i hc
      cases hss : splitSS cs with
      | none =>
        rw [if_neg ?_]
        · rw [ih hss]
        · intro hcon
          apply hc
          refine ⟨hcon.1, ?_⟩
          cases cs with
          | nil => simp [List.take] at hcon
          | cons a t =>
            cases t with
            | nil => simp [List.take] at hcon
            | cons b t2 =>
              rw [take_two_stable (by simp)] at hcon
              exact hcon.2
      | some p2 => rw [hss] at h; simp at h

theorem splitSS_snd_subset {l : List Char} {p : List Char × List Char}
    (h : splitSS l = some p) : ∀ c ∈ p.2, c ∈ l := by
  induction l generalizing p with
  | nil => simp [splitSS] at h
  | cons c cs ih =>
    rw [splitSS] at h
    split at h
    · simp at h
      subst h
      intro x hx
      simp
      right
      exact (List.drop_sublist 2 cs).mem hx
    · cases hss : splitSS cs with
      | none => rw [hss] at h; simp at h
      | some p2 =>
        rw [hss] at h
        simp at h
        subst h
        intro x hx
        simp
        right
        exact ih hss x hx

theorem takeUntilQF_clean {l : List Char}
    (h : ∀ c ∈ l, c ≠ '?' ∧ c ≠ '#') : takeUntilQF l = l := by
  induction l with
  | nil => simp [takeUntilQF]
  | cons c cs ih =>
    rw [takeUntilQF]
    have hc := h c (by simp)
    rw [if_neg (by simp [hc.1, hc.2])]
    rw [ih (fun x hx => h x (by simp [hx]))]

theorem takeUntilQF_clean_append {l l2 : List Char}
    (h : ∀ c ∈ l, c ≠ '?' ∧ c ≠ '#') : takeUntilQF (l ++ '?' :: l2) = l := by
  induction l with
  | nil =>
    simp only [List.nil_append]
    rw [takeUntilQF]
    simp
  | cons c cs ih =>
    rw [List.cons_append, takeUntilQF]
    have hc := h c (by simp)
    rw [if_neg (by simp [hc.1, hc.2])]
    rw [ih (fun x hx => h x (by simp [hx]))]

theorem pathOfUrl_query (url q : String)
    (h1 : '?' ∉ url.data) (h2 : '#' ∉ url.data) (h3 : ':' ∉ q.data) :
    pathOfUrl (url ++ "?" ++ q) = pathOfUrl url := by
  have hdata : (url ++ "?" ++ q).data = url.data ++ '?' :: q.data := by
    have hq : ("?" : String).data = ['?'] := rfl
    rw [data_append, data_append, hq, List.append_assoc]
    rfl
  unfold pathOfUrl
  rw [hdata]
  cases hss : splitSS url.data with
  | none =>
    simp only [hss, splitSS_none_append hss h3]
    rw [takeUntilQF_clean_append (fun c hc => ⟨fun he => h1 (he ▸ hc), fun he => h2 (he ▸ hc)⟩)]
    rw [takeUntilQF_clean (fun c hc => ⟨fun he => h1 (he ▸ hc), fun he => h2 (he ▸ hc)⟩)]
  | some p =>
    simp only [hss, splitSS_append hss]
    have hsub := splitSS_snd_subset hss
    have hclean : ∀ c ∈ p.2.dropWhile notDelim, c ≠ '?' ∧ c ≠ '#' := by
      intro c hc
      have hmem : c ∈ url.data := hsub c ((List.dropWhile_sublist notDelim).mem hc)
      exact ⟨fun he => h1 (he ▸ hmem), fun he => h2 (he ▸ hmem)⟩
    rw [List.dropWhile_append]
    split
    · rename_i hemp
      have : p.2.dropWhile notDelim = [] := by simpa using hemp
      rw [this]
      rw [takeUntilQF]
      have : notDelim '?' = false := by decide
      rw [List.dropWhile_cons]
      rw [this]
      simp [takeUntilQF]
    · rw [takeUntilQF_clean_append hclean, takeUntilQF_clean hclean]

theorem safeFilename_main {url : String} (h : pathName (pathOfUrl url) ≠ []) :
    safeFilename url = String.mk (sanitizeChars (pathName (pathOfUrl url))) := by
  simp only [safeFilename]
  rw [if_neg (by simpa using h)]

theorem safeFilename_fallback {url : String} (h : pathName (pathOfUrl url) = []) :
    safeFilename url = "image_" ++ sha1hex url ++ ".jpg" := by
  simp only [safeFilename]
  rw [if_pos (by simpa using h)]

theorem safeFilename_ne_empty (url : String) : safeFilename url ≠ "" := by
  simp only [safeFilename]
  split
  · intro h
    have := congrArg String.data h
    rw [data_append, data_append] at this
    simp at this
  · rename_i hne
    intro h
    have := congrArg String.data h
    simp at this
    simp [sanitizeChars] at this
    simp [this] at hne

theorem sanitizeChars_clean (l : List Char) :
    ∀ c ∈ sanitizeChars l, unsafeChar c = false := by
  intro c hc
  simp [sanitizeChars] at hc
  obtain ⟨a, _, ha⟩ := hc
  by_cases hu : unsafeChar a = true
  · rw [if_pos hu] at ha
    subst ha
    decide
  · rw [if_neg hu] at ha
    subst ha
    simpa using hu

theorem safeFilename_query (url q : String)
    (h1 : '?' ∉ url.data) (h2 : '#' ∉ url.data) (h3 : ':' ∉ q.data)
    (hne : pathName (pathOfUrl url) ≠ []) :
    safeFilename (url ++ "?" ++ q) = safeFilename url := by
  have hp := pathOfUrl_query url q h1 h2 h3
  rw [safeFilename_main (by rw [hp]; exact hne), safeFilename_main hne, hp]

/-! Claim theorems. -/

/-- C1 (amended): with a maximum link count K (non-zero), at most K + 1
same-origin links are dispatched into fetch/classify processing — the
script's bound check `link_count > max_links` runs only after the link
crossing the boundary has been fetched and classified — and every
dispatched link was fetched successfully, so origin-skipped and
fetch-failed links never count toward the budget.  The claim's bound of K
is off by one, see the counterexample. -/
theorem claim_c1 (w : World) (cfg : Config) (K : Nat)
    (hm : cfg.maxLinks = some K) (hK : K ≠ 0) :
    countDispatch (runEvents w cfg) ≤ K + 1 ∧
      dispatchFetched w (runEvents w cfg) = true :=
  ⟨run_dispatch_bound hm hK, run_dispatchFetched w cfg⟩

/-- C1 witness: in the concrete run `cw1`/`cfg1` (budget 1, three
same-origin links) the amended bound holds. -/
theorem claim_c1_witness :
    countDispatch (runEvents cw1 cfg1) ≤ 1 + 1 ∧
      dispatchFetched cw1 (runEvents cw1 cfg1) = true :=
  claim_c1 cw1 cfg1 1 rfl (by decide)

/-- C1 counterexample: with `max_links = 1` and three qualifying links,
two links are dispatched into fetch/classify processing, exceeding the
claimed bound of one. -/
theorem claim_c1_counterexample :
    cfg1.maxLinks = some 1 ∧ countDispatch (runEvents cw1 cfg1) = 2 :=
  ⟨rfl, by decide⟩

/-- C2 (amended): when the root fetch fails, the function logs the error,
returns `None` immediately, and writes no file — but the process exit
status is 0, not non-zero: the `except` handler only prints and returns,
and `__main__` never calls `sys.exit`. -/
theorem claim_c2 (w : World) (cfg : Config) (h : w.fetch cfg.url = none) :
    run w cfg = Except.ok { retSome := false, events := [Ev.rootFetchError cfg.url] } ∧
      pyExitCode (run w cfg) = 0 ∧ savedNames (runEvents w cfg) = [] := by
  have hrun : run w cfg =
      Except.ok { retSome := false, events := [Ev.rootFetchError cfg.url] } := by
    unfold run
    simp only [h]
  refine ⟨hrun, by rw [hrun]; rfl, by unfold runEvents; rw [hrun]; rfl⟩

/-- C2 witness: the concrete failing-root run. -/
theorem claim_c2_witness :
    run cw2 cfg2 = Except.ok { retSome := false, events := [Ev.rootFetchError cfg2.url] } ∧
      pyExitCode (run cw2 cfg2) = 0 ∧ savedNames (runEvents cw2 cfg2) = [] :=
  claim_c2 cw2 cfg2 rfl

/-- C2 counterexample: the root fetch fails yet the exit status is 0,
refuting the claimed non-zero exit status. -/
theorem claim_c2_counterexample :
    cw2.fetch cfg2.url = none ∧ pyExitCode (run cw2 cfg2) = 0 :=
  ⟨rfl, by decide⟩

/-- C3 (amended): after a successful root fetch, a failed image fetch or a
failed link fetch (the GET itself) never aborts the run: those exceptions
are caught, logged, and only the resource is skipped.  The run is
guaranteed to return normally only when additionally no file open fails
and no HTML-classified link's streamed body fails mid-read: an `OSError`
from `open` and the `requests` exception raised by `link_resp.text`
(script line 115, outside every `try`) are both uncaught and abort the
whole run, see the counterexample. -/
theorem claim_c3 (w : World) (cfg : Config)
    (hop : ∀ f, w.openFail f = false)
    (hbody : ∀ u r, w.fetch u = some r →
      classifyDirect r.contentType u = false → r.streamFail = none) :
    (run w cfg).isOk = true := by
  obtain ⟨res, hr⟩ := run_isOk cfg hop hbody
  rw [hr]
  rfl

/-- C3 witness: a run in which the first root image fetch fails still
completes normally (and its second image is attempted, see C8). -/
theorem claim_c3_witness : (run cw3b cfg3).isOk = true :=
  claim_c3 cw3b cfg3 (fun _ => rfl)
    (fun u r hf _ => by
      by_cases h1 : u = "http://h/"
      · subst h1
        simp [cw3b] at hf
        rw [← hf]
        rfl
      · by_cases h2 : u = "http://h/b.png"
        · subst h2
          simp [cw3b, h1] at hf
          rw [← hf]
          rfl
        · simp [cw3b, h1, h2] at hf)

/-- C3 counterexample: two distinct uncaught aborts.  First, a failed
file open (an `OSError`, not a `requests.RequestException`) crashes the
run of `cw3`, so its second root image is never processed.  Second, in
`cw3c` every file open succeeds, yet the run still aborts: the streamed
body of an HTML-classified link fails mid-read, and `link_resp.text` at
script line 115 sits outside every `try`. -/
theorem claim_c3_counterexample :
    (cw3.openFail "root_1_a.png" = true ∧ (run cw3 cfg3).isOk = false) ∧
      (cw3c.openFail = (fun _ => false) ∧ (run cw3c cfg3).isOk = false) :=
  ⟨⟨by decide, by decide⟩, ⟨rfl, by decide⟩⟩

/-- C4 (amended): a fetch failure before any byte is written leaves no
file, but a mid-stream failure (after k chunks) leaves the truncated file
in the output location: the script streams chunks straight into the open
file and performs no cleanup in its `except` arm. -/
theorem claim_c4 (w : World) (cfg : Config) (resp : Response) (idx : Nat)
    (t : ImgTag) (s : String) (r : Response) (k : Nat)
    (hop : ∀ f, w.openFail f = false)
    (hroot : w.fetch cfg.url = some resp)
    (hget : resp.page.imgs[idx]? = some t)
    (hus : usableSrc t = some s)
    (hf : w.fetch (urljoin cfg.url s) = some r)
    (hsf : r.streamFail = some k) :
    Ev.fileWritten (rootNameStr (idx + 1) (safeFilename (urljoin cfg.url s)))
      (String.join (r.chunks.take k)) ∈ runEvents w cfg := by
  have hc : respContent r = String.join (r.chunks.take k) := by
    unfold respContent
    rw [hsf]
  have := run_root_mem hop hroot hget hus hf
  rw [hc] at this
  exact this

/-- C4 witness: the concrete truncated write of `cw4`. -/
theorem claim_c4_witness :
    Ev.fileWritten (rootNameStr (0 + 1) (safeFilename (urljoin cfg4.url "a.png")))
      (String.join ((["ab", "cd"] : List String).take 1)) ∈ runEvents cw4 cfg4 :=
  claim_c4 cw4 cfg4
    (htmlResp { imgs := [{ src := some "a.png", dataSrc := none }], anchors := [] })
    0 { src := some "a.png", dataSrc := none } "a.png"
    { contentType := "image/png", chunks := ["ab", "cd"], streamFail := some 1,
      page := emptyPage }
    1 (fun _ => rfl) rfl rfl rfl rfl rfl

/-- C4 counterexample: the stream of the only root image fails after one
of its two chunks; the truncated file (content `ab` of the full `abcd`)
remains in the trace with no cleanup event, refuting the claim that no
partial file is left behind. -/
theorem claim_c4_counterexample :
    runEvents cw4 cfg4 = [Ev.rootImgAttempt "http://h/a.png",
      Ev.fileWritten "root_1_a.png" "ab", Ev.imgFetchError "http://h/a.png"] ∧
      Option.map (fun r => String.join r.chunks) (cw4.fetch "http://h/a.png") =
        some "abcd" ∧
      ("ab" : String) ≠ "abcd" := by
  refine ⟨by decide, by decide, by decide⟩

/-- C5 (confirmed): in every run, the names of the written files are
pairwise distinct, and every one follows one of the three schemes
`root_<i>_<name>`, `link_<j>_direct_<name>`, `<j>_<k>_<name>` with 1-based
indices: the scope prefix and the strictly increasing indices make
collisions impossible. -/
theorem claim_c5 (w : World) (cfg : Config) :
    (savedNames (runEvents w cfg)).Nodup ∧
      (savedNames (runEvents w cfg)).all nameShapeOk = true := by
  obtain ⟨hnd, hsh⟩ := run_savedNames w cfg
  refine ⟨hnd, ?_⟩
  rw [List.all_eq_true]
  intro n hn
  rcases hsh n hn with ⟨i, b, _, hb⟩ | ⟨j, b, _, hb⟩ | ⟨j, k, b, _, _, hb⟩
  · rw [hb]; exact nameShapeOk_root i b
  · rw [hb]; exact nameShapeOk_direct j b
  · rw [hb]; exact nameShapeOk_page j k b

/-- C6 (amended): the classifier agrees with the specification's rule
(content-type begins with `image/`, or the path suffix is jpg, jpeg, png
or gif case-insensitively); a scanned page was always fetched and
classified as non-image (a direct-image resource is never passed to the
scanner); a direct-classified link is saved under a
`link_<j>_direct_<name>` file; and without a link budget every resource
classified as HTML is indeed scanned.  The boundary link of an exhausted
budget, however, is classified as HTML but not scanned, see the
counterexample. -/
theorem claim_c6 (w : World) (cfg : Config) (ct url u v t : String)
    (hop : ∀ f, w.openFail f = false)
    (hm : cfg.maxLinks = none)
    (hu : Ev.pageScanned u ∈ runEvents w cfg)
    (hv : Ev.linkDispatched v true ∈ runEvents w cfg)
    (ht : Ev.linkDispatched t false ∈ runEvents w cfg) :
    classifyDirect ct url = specClassifyDirect ct url ∧
      ((w.fetch u).isSome = true ∧ classifiedDirectAt w u = false) ∧
      hasDirectSaveFor (runEvents w cfg) (safeFilename v) = true ∧
      Ev.pageScanned t ∈ runEvents w cfg :=
  ⟨classifyDirect_eq_spec ct url, run_scanned_inv hu, run_direct_save hv,
    run_none_scans hm ht⟩

/-- C6 witness: in the unbounded run of `cw6`, the scanned page
`http://h/p1` is HTML-classified, the direct link `http://h/i.png` has a
direct-image save, and the HTML-classified link is scanned. -/
theorem claim_c6_witness :
    classifyDirect "text/html" "http://h/x.png" =
        specClassifyDirect "text/html" "http://h/x.png" ∧
      ((cw6.fetch "http://h/p1").isSome = true ∧
        classifiedDirectAt cw6 "http://h/p1" = false) ∧
      hasDirectSaveFor (runEvents cw6 cfg6b) (safeFilename "http://h/i.png") = true ∧
      Ev.pageScanned "http://h/p1" ∈ runEvents cw6 cfg6b :=
  claim_c6 cw6 cfg6b "text/html" "http://h/x.png" "http://h/p1" "http://h/i.png"
    "http://h/p1" (fun _ => rfl) rfl (by decide) (by decide) (by decide)

/-- C6 counterexample: with a budget of 2, the third same-origin link is
fetched and classified as HTML (not a direct image) but the run stops
before scanning it, refuting the claim that every non-image resource is
treated as an HTML page to be scanned. -/
theorem claim_c6_counterexample :
    Ev.linkDispatched "http://h/p2" false ∈ runEvents cw6 cfg6 ∧
      Ev.pageScanned "http://h/p2" ∉ runEvents cw6 cfg6 ∧
      classifiedDirectAt cw6 "http://h/p2" = false := by
  refine ⟨by decide, by decide, by decide⟩

/-- C7 (confirmed): the filename deriver never returns an empty name; for
a URL with a non-empty final path segment the result is that segment with
every disallowed character replaced by `_` (hence free of them), and it is
unchanged by appending a query string; for a URL without a final segment
the result is the deterministic `image_<sha1(url)>.jpg` fallback (the
deriver is a pure function, so the same URL always yields the same
name). -/
theorem claim_c7 (url q : String) :
    safeFilename url ≠ "" ∧
      (pathName (pathOfUrl url) ≠ [] →
        safeFilename url = String.mk (sanitizeChars (pathName (pathOfUrl url))) ∧
          (safeFilename url).data.all (fun c => !(unsafeChar c)) = true) ∧
      (pathName (pathOfUrl url) = [] →
        safeFilename url = "image_" ++ sha1hex url ++ ".jpg") ∧
      ('?' ∉ url.data → '#' ∉ url.data → ':' ∉ q.data →
        pathName (pathOfUrl url) ≠ [] →
        safeFilename (url ++ "?" ++ q) = safeFilename url) := by
  refine ⟨safeFilename_ne_empty url, ?_, fun h => safeFilename_fallback h,
    fun h1 h2 h3 hne => safeFilename_query url q h1 h2 h3 hne⟩
  intro h
  refine ⟨safeFilename_main h, ?_⟩
  rw [List.all_eq_true]
  intro c hc
  rw [safeFilename_main h] at hc
  simp only [Bool.not_eq_eq_eq_not, Bool.not_true]
  exact sanitizeChars_clean _ c (by simpa using hc)

/-- C7 witness: a URL with an unsafe character in its final segment. -/
theorem claim_c7_witness :
    safeFilename "http://h/a*b.png" ≠ "" ∧
      (pathName (pathOfUrl "http://h/a*b.png") ≠ [] →
        safeFilename "http://h/a*b.png" =
            String.mk (sanitizeChars (pathName (pathOfUrl "http://h/a*b.png"))) ∧
          (safeFilename "http://h/a*b.png").data.all (fun c => !(unsafeChar c)) = true) ∧
      (pathName (pathOfUrl "http://h/a*b.png") = [] →
        safeFilename "http://h/a*b.png" =
          "image_" ++ sha1hex "http://h/a*b.png" ++ ".jpg") ∧
      ('?' ∉ ("http://h/a*b.png" : String).data → '#' ∉ ("http://h/a*b.png" : String).data →
        ':' ∉ ("v=1" : String).data → pathName (pathOfUrl "http://h/a*b.png") ≠ [] →
        safeFilename ("http://h/a*b.png" ++ "?" ++ "v=1") =
          safeFilename "http://h/a*b.png") :=
  claim_c7 "http://h/a*b.png" "v=1"

/-- C8 (amended): exactly one download attempt is made per root image
element with a usable source attribute (`src` or non-empty `data-src`);
elements without one are skipped silently with no attempt.  A usable
element at 0-based document position idx whose fetch succeeds and whose
file opens is saved as `root_<idx+1>_<derivedName>`. -/
theorem claim_c8 (w : World) (cfg : Config) (resp : Response) (idx : Nat)
    (t : ImgTag) (s : String) (r : Response)
    (hop : ∀ f, w.openFail f = false)
    (hroot : w.fetch cfg.url = some resp)
    (hget : resp.page.imgs[idx]? = some t)
    (hus : usableSrc t = some s)
    (hf : w.fetch (urljoin cfg.url s) = some r) :
    countRootAttempts (runEvents w cfg) = countUsable resp.page.imgs ∧
      Ev.fileWritten (rootNameStr (idx + 1) (safeFilename (urljoin cfg.url s)))
        (respContent r) ∈ runEvents w cfg :=
  ⟨run_attempts hop hroot, run_root_mem hop hroot hget hus hf⟩

/-- C8 witness: a page with one unusable and one usable image element:
one attempt, and the usable element (position 1, 0-based) is saved as
`root_2_...`. -/
theorem claim_c8_witness :
    countRootAttempts (runEvents cw8b cfg8) =
        countUsable (htmlResp { imgs := [{ src := none, dataSrc := none },
          { src := some "b.png", dataSrc := none }], anchors := [] }).page.imgs ∧
      Ev.fileWritten (rootNameStr (1 + 1) (safeFilename (urljoin cfg8.url "b.png")))
        (respContent (pngResp ["BB"])) ∈ runEvents cw8b cfg8 :=
  claim_c8 cw8b cfg8
    (htmlResp { imgs := [{ src := none, dataSrc := none },
      { src := some "b.png", dataSrc := none }], anchors := [] })
    1 { src := some "b.png", dataSrc := none } "b.png" (pngResp ["BB"])
    (fun _ => rfl) rfl rfl rfl rfl

/-- C8 counterexample: a root page with one image element (which has no
usable source) leads to zero download attempts, refuting the claim of
exactly N attempts for N image elements. -/
theorem claim_c8_counterexample :
    Option.map (fun resp => resp.page.imgs.length) (cw8.fetch cfg8.url) = some 1 ∧
      countRootAttempts (runEvents cw8 cfg8) = 0 := by
  refine ⟨by decide, by decide⟩

/-- C9 (amended): two dated runs use distinct directories whenever their
start times differ in any strftime field (year to second, within the
format's ranges); the timestamp format has one-second resolution, so two
runs starting within the same second share the directory, see the
counterexample. -/
theorem claim_c9 (f : String) (t1 t2 : Timestamp)
    (h1 : t1.year < 10000) (h2 : t1.month < 100) (h3 : t1.day < 100)
    (h4 : t1.hour < 100) (h5 : t1.minute < 100) (h6 : t1.second < 100)
    (g1 : t2.year < 10000) (g2 : t2.month < 100) (g3 : t2.day < 100)
    (g4 : t2.hour < 100) (g5 : t2.minute < 100) (g6 : t2.second < 100)
    (hne : ¬(t1.year = t2.year ∧ t1.month = t2.month ∧ t1.day = t2.day ∧
      t1.hour = t2.hour ∧ t1.minute = t2.minute ∧ t1.second = t2.second)) :
    outputPath f true t1 ≠ outputPath f true t2 := by
  intro h
  unfold outputPath at h
  rw [if_pos rfl, if_pos rfl] at h
  have hd := congrArg String.data h
  rw [data_append, data_append, data_append, data_append, List.append_assoc,
    List.append_assoc] at hd
  have hdn : datedName t1 = datedName t2 :=
    string_data_inj (List.append_cancel_left (List.append_cancel_left hd))
  exact hne (datedName_inj h1 h2 h3 h4 h5 h6 g1 g2 g3 g4 g5 g6 hdn)

/-- C9 witness: two start times one second apart give distinct
directories. -/
theorem claim_c9_witness :
    outputPath "out" true ts1 ≠ outputPath "out" true
      { year := 2026, month := 10, day := 12, hour := 9, minute := 30,
        second := 8, micro := 0 } :=
  claim_c9 "out" ts1
    { year := 2026, month := 10, day := 12, hour := 9, minute := 30,
      second := 8, micro := 0 }
    (by decide) (by decide) (by decide) (by decide) (by decide) (by decide)
    (by decide) (by decide) (by decide) (by decide) (by decide) (by decide)
    (by decide)

/-- C9 counterexample: two distinct run start times within the same
second (differing only in microseconds) produce the same dated output
directory, refuting the claim that two dated runs never share one. -/
theorem claim_c9_counterexample :
    ts1 ≠ ts2 ∧ outputPath "out" true ts1 = outputPath "out" true ts2 := by
  refine ⟨by decide, by decide⟩

/-- C10 (confirmed): a maximum link count of exactly 0 behaves as no
bound at all — `if max_links and ...` is skipped for the falsy 0, so the
run is identical to the one with `max_links=None`. -/
theorem claim_c10 (w : World) (cfg : Config) (h : cfg.maxLinks = some 0) :
    run w cfg =
      run w { url := cfg.url, sameDomain := cfg.sameDomain, maxLinks := none } := by
  cases cfg with
  | mk u sd m =>
    simp at h
    subst h
    exact run_budget_zero w u sd

/-- C10 witness: the concrete run with budget 0 equals the unbounded
run. -/
theorem claim_c10_witness :
    run cw10 cfg10 =
      run cw10 { url := cfg10.url, sameDomain := cfg10.sameDomain, maxLinks := none } :=
  claim_c10 cw10 cfg10 rfl

end Harvest
